import Mathlib

/-
Verification of `normalize_lasher.py`, a two-pass batch tool that renames
real `.jpg` files in a directory tree to canonical zero-padded 6-digit
numeric names and repairs `.jpg` symlinks so that they point (via a
relative path) at the canonical real file in the same directory.

The Python source is shallowly embedded: pure string processing becomes
Lean functions on `List Char` / `String`, and the filesystem becomes an
association list from paths to entry kinds, with the two passes expressed
as folds over the `rglob` walk.
-/

set_option maxRecDepth 4000

namespace LasHeR

/-! ### Digit extraction (`extract_num6`, lines 8-23 of the source) -/

/-- Fuel-indexed worker for the matches of the regex `(\d+)`.  With fuel at
least the length of the list it returns the maximal runs of decimal-digit
characters, in order of appearance, exactly as `DIGITS.findall` does. -/
def digitRunsF : Nat → List Char → List (List Char)
  | 0, _ => []
  | _ + 1, [] => []
  | fuel + 1, c :: cs =>
    if c.isDigit then
      (c :: cs.takeWhile Char.isDigit) :: digitRunsF fuel (cs.dropWhile Char.isDigit)
    else
      digitRunsF fuel cs

/-- `DIGITS.findall(name)` (line 13): the maximal runs of decimal digits of
`name`, in order of appearance. -/
def digitRuns (l : List Char) : List (List Char) :=
  digitRunsF l.length l

/-- The value of a decimal digit string, i.e. what Python `int` computes on
a nonempty all-digit string. -/
def natOfDigits (l : List Char) : Nat :=
  l.foldl (fun a c => a * 10 + (c.toNat - 48)) 0

/-- Python `int(s)` (line 20) on the strings this program can build: a
nonempty all-digit string parses to its value, anything else raises
`ValueError`, modeled as `none`.  (Real `int` also accepts signs and
whitespace; `extract_num6` only ever passes concatenations of digit runs,
so those forms never arise.) -/
def pyInt (s : String) : Option Nat :=
  if s.data ≠ [] ∧ s.data.all Char.isDigit then some (natOfDigits s.data) else none

/-- Fuel-indexed worker producing the decimal digit characters of `n`, most
significant first; any fuel at least `n` gives the true digits. -/
def decDigitsF : Nat → Nat → List Char
  | 0, n => [Nat.digitChar n]
  | fuel + 1, n =>
    if n < 10 then [Nat.digitChar n]
    else decDigitsF fuel (n / 10) ++ [Nat.digitChar (n % 10)]

/-- The decimal digit characters of `n`, most significant first: what the
`d` conversion of a Python format string prints for a nonnegative value. -/
def decDigits (n : Nat) : List Char :=
  decDigitsF n n

/-- Python `f"{n:06d}"` for nonnegative `n` (line 23): the decimal digits of
`n`, left-padded with zeros to width 6; wider than 6 digits print in full. -/
def fmt06 (n : Nat) : String :=
  String.mk (List.replicate (6 - (decDigits n).length) '0' ++ decDigits n)

/-- `extract_num6` (lines 10-23): collect the digit runs of the name; if
there are none return `None`; otherwise join them, parse the join with
`int`, and format the value zero-padded to width 6. -/
def extract_num6 (name : String) : Option String :=
  let nums := digitRuns name.data
  if nums = [] then none
  else
    match pyInt (String.mk nums.flatten) with
    | none => none
    | some n => some (fmt06 n)

/-- The specification's reading of the canonical name: take every decimal
digit character of the name in order (the concatenation of the maximal
digit runs), parse the concatenation as an unsigned integer, and format it
zero-padded to width 6; no digits means no canonical name. -/
def canonSpec (name : String) : Option String :=
  let ds := name.data.filter Char.isDigit
  if ds = [] then none else some (fmt06 (natOfDigits ds))

/-! ### Basic lemmas about the digit machinery -/

theorem dropWhile_length_le (p : Char → Bool) (l : List Char) :
    (l.dropWhile p).length ≤ l.length :=
  (List.dropWhile_suffix p).sublist.length_le

theorem digitRunsF_congr :
    ∀ (f₁ : Nat) (l : List Char) (f₂ : Nat), l.length ≤ f₁ → l.length ≤ f₂ →
      digitRunsF f₁ l = digitRunsF f₂ l := by
  intro f₁
  induction f₁ with
  | zero =>
    intro l f₂ h₁ _
    have : l = [] := List.eq_nil_of_length_eq_zero (Nat.le_zero.mp h₁)
    subst this
    cases f₂ <;> rfl
  | succ f ih =>
    intro l f₂ h₁ h₂
    cases l with
    | nil => cases f₂ <;> rfl
    | cons c cs =>
      cases f₂ with
      | zero => exact absurd h₂ (by simp)
      | succ f' =>
        simp only [digitRunsF]
        by_cases hc : c.isDigit
        · simp only [hc, if_true]
          have hd : (cs.dropWhile Char.isDigit).length ≤ cs.length :=
            dropWhile_length_le _ cs
          have h₁' : (cs.dropWhile Char.isDigit).length ≤ f := by
            simp only [List.length_cons] at h₁; omega
          have h₂' : (cs.dropWhile Char.isDigit).length ≤ f' := by
            simp only [List.length_cons] at h₂; omega
          rw [ih _ f' h₁' h₂']
        · simp only [hc, if_false]
          have h₁' : cs.length ≤ f := by simp only [List.length_cons] at h₁; omega
          have h₂' : cs.length ≤ f' := by simp only [List.length_cons] at h₂; omega
          exact ih _ f' h₁' h₂'

theorem digitRuns_nil : digitRuns [] = [] := rfl

theorem digitRuns_cons_digit (c : Char) (cs : List Char) (hc : c.isDigit = true) :
    digitRuns (c :: cs) =
      (c :: cs.takeWhile Char.isDigit) :: digitRuns (cs.dropWhile Char.isDigit) := by
  show digitRunsF (c :: cs).length (c :: cs) = _
  simp only [List.length_cons, digitRunsF, hc, if_true]
  rw [digitRunsF_congr cs.length (cs.dropWhile Char.isDigit)
        (cs.dropWhile Char.isDigit).length (dropWhile_length_le _ cs) le_rfl]
  rfl

theorem digitRuns_cons_nondigit (c : Char) (cs : List Char) (hc : c.isDigit = false) :
    digitRuns (c :: cs) = digitRuns cs := by
  show digitRunsF (c :: cs).length (c :: cs) = _
  simp only [List.length_cons, digitRunsF, hc, if_false]
  rfl

theorem filter_takeWhile_dropWhile (p : Char → Bool) (l : List Char) :
    l.filter p = l.takeWhile p ++ (l.dropWhile p).filter p := by
  conv_lhs => rw [← l.takeWhile_append_dropWhile p]
  rw [List.filter_append]
  congr 1
  exact List.filter_eq_self.mpr (fun a ha => List.mem_takeWhile_imp ha)

theorem digitRuns_join :
    ∀ (fuel : Nat) (l : List Char), l.length = fuel →
      (digitRuns l).flatten = l.filter Char.isDigit := by
  intro fuel
  induction fuel using Nat.strong_induction_on with
  | _ fuel ih =>
    intro l hl
    cases l with
    | nil => rfl
    | cons c cs =>
      by_cases hc : c.isDigit
      · rw [digitRuns_cons_digit c cs hc]
        have hrec : (digitRuns (cs.dropWhile Char.isDigit)).flatten =
            (cs.dropWhile Char.isDigit).filter Char.isDigit := by
          refine ih (cs.dropWhile Char.isDigit).length ?_ _ rfl
          have := dropWhile_length_le Char.isDigit cs
          simp only [List.length_cons] at hl; omega
        simp only [List.flatten_cons, hrec, List.filter_cons, hc, if_true]
        rw [filter_takeWhile_dropWhile Char.isDigit cs]
        simp
      · rw [digitRuns_cons_nondigit c cs (Bool.not_eq_true _ ▸ by simpa using hc)]
        have hrec : (digitRuns cs).flatten = cs.filter Char.isDigit := by
          refine ih cs.length ?_ _ rfl
          simp only [List.length_cons] at hl; omega
        rw [hrec, List.filter_cons]
        simp only [Bool.not_eq_true] at hc
        simp [hc]

theorem digitRuns_join_eq (l : List Char) :
    (digitRuns l).flatten = l.filter Char.isDigit :=
  digitRuns_join l.length l rfl

theorem digitRuns_eq_nil_iff :
    ∀ (fuel : Nat) (l : List Char), l.length = fuel →
      (digitRuns l = [] ↔ l.filter Char.isDigit = []) := by
  intro fuel
  induction fuel using Nat.strong_induction_on with
  | _ fuel ih =>
    intro l hl
    cases l with
    | nil => simp [digitRuns_nil]
    | cons c cs =>
      by_cases hc : c.isDigit
      · rw [digitRuns_cons_digit c cs hc]
        simp [List.filter_cons, hc]
      · have hc' : c.isDigit = false := by simpa using hc
        rw [digitRuns_cons_nondigit c cs hc']
        rw [List.filter_cons]
        simp only [hc', if_false]
        refine ih cs.length ?_ _ rfl
        simp only [List.length_cons] at hl; omega

theorem digitRuns_eq_nil (l : List Char) :
    digitRuns l = [] ↔ l.filter Char.isDigit = [] :=
  digitRuns_eq_nil_iff l.length l rfl

theorem natOfDigits_append (l₁ l₂ : List Char) :
    natOfDigits (l₁ ++ l₂) =
      l₂.foldl (fun a c => a * 10 + (c.toNat - 48)) (natOfDigits l₁) := by
  simp [natOfDigits, List.foldl_append]

theorem natOfDigits_replicate_zero (k : Nat) (l : List Char) :
    natOfDigits (List.replicate k '0' ++ l) = natOfDigits l := by
  rw [natOfDigits_append]
  have hz : natOfDigits (List.replicate k '0') = 0 := by
    induction k with
    | zero => rfl
    | succ k ihk =>
      rw [List.replicate_succ]
      show (List.replicate k '0').foldl (fun a c => a * 10 + (c.toNat - 48))
        (0 * 10 + ('0'.toNat - 48)) = 0
      have : (0 : Nat) * 10 + ('0'.toNat - 48) = 0 := by decide
      rw [this]
      exact ihk
  rw [hz]
  rfl

theorem digitChar_toNat (m : Nat) (hm : m < 10) : (Nat.digitChar m).toNat = m + 48 := by
  interval_cases m <;> rfl

theorem digitChar_isDigit (m : Nat) (hm : m < 10) : (Nat.digitChar m).isDigit = true := by
  interval_cases m <;> rfl

theorem decDigitsF_congr :
    ∀ (f₁ : Nat) (n : Nat) (f₂ : Nat), n ≤ f₁ → n ≤ f₂ →
      decDigitsF f₁ n = decDigitsF f₂ n := by
  intro f₁
  induction f₁ with
  | zero =>
    intro n f₂ h₁ _
    have : n = 0 := Nat.le_zero.mp h₁
    subst this
    cases f₂ with
    | zero => rfl
    | succ f' => simp [decDigitsF]
  | succ f ih =>
    intro n f₂ h₁ h₂
    by_cases hn : n < 10
    · cases f₂ with
      | zero =>
        have : n = 0 := Nat.le_zero.mp h₂
        subst this
        simp [decDigitsF]
      | succ f' => simp [decDigitsF, hn]
    · cases f₂ with
      | zero => omega
      | succ f' =>
        simp only [decDigitsF, hn, if_false]
        have hd : n / 10 < n := Nat.div_lt_self (by omega) (by omega)
        rw [ih (n / 10) f' (by omega) (by omega)]

theorem decDigits_lt (n : Nat) (hn : n < 10) : decDigits n = [Nat.digitChar n] := by
  show decDigitsF n n = _
  cases n with
  | zero => rfl
  | succ m => simp [decDigitsF, hn]

theorem decDigits_ge (n : Nat) (hn : 10 ≤ n) :
    decDigits n = decDigits (n / 10) ++ [Nat.digitChar (n % 10)] := by
  show decDigitsF n n = _
  cases n with
  | zero => omega
  | succ m =>
    simp only [decDigitsF, Nat.not_lt.mpr hn, if_false]
    congr 1
    have hd : (m + 1) / 10 < m + 1 := Nat.div_lt_self (by omega) (by omega)
    exact decDigitsF_congr m ((m + 1) / 10) ((m + 1) / 10) (by omega) le_rfl

theorem natOfDigits_decDigits (n : Nat) : natOfDigits (decDigits n) = n := by
  induction n using Nat.strong_induction_on with
  | _ n ih =>
    by_cases hn : n < 10
    · rw [decDigits_lt n hn]
      show 0 * 10 + ((Nat.digitChar n).toNat - 48) = n
      rw [digitChar_toNat n hn]; omega
    · rw [decDigits_ge n (by omega), natOfDigits_append]
      rw [ih (n / 10) (Nat.div_lt_self (by omega) (by omega))]
      show n / 10 * 10 + ((Nat.digitChar (n % 10)).toNat - 48) = n
      rw [digitChar_toNat (n % 10) (Nat.mod_lt _ (by omega))]
      omega

theorem decDigits_ne_nil (n : Nat) : decDigits n ≠ [] := by
  by_cases hn : n < 10
  · rw [decDigits_lt n hn]; simp
  · rw [decDigits_ge n (by omega)]; simp

theorem decDigits_all_digit (n : Nat) : (decDigits n).all Char.isDigit = true := by
  induction n using Nat.strong_induction_on with
  | _ n ih =>
    by_cases hn : n < 10
    · rw [decDigits_lt n hn]
      simp [digitChar_isDigit n hn]
    · rw [decDigits_ge n (by omega), List.all_append]
      rw [ih (n / 10) (Nat.div_lt_self (by omega) (by omega))]
      simp [digitChar_isDigit (n % 10) (Nat.mod_lt _ (by omega))]

theorem decDigits_length_le_iff (n : Nat) :
    ∀ (k : Nat), 1 ≤ k → ((decDigits n).length ≤ k ↔ n < 10 ^ k) := by
  induction n using Nat.strong_induction_on with
  | _ n ih =>
    intro k hk
    by_cases hn : n < 10
    · rw [decDigits_lt n hn]
      simp only [List.length_singleton]
      constructor
      · intro _
        calc n < 10 := hn
        _ = 10 ^ 1 := (pow_one 10).symm
        _ ≤ 10 ^ k := Nat.pow_le_pow_right (by omega) hk
      · intro _; exact hk
    · rw [decDigits_ge n (by omega)]
      rw [List.length_append, List.length_singleton]
      rcases Nat.lt_or_ge k 2 with hk2 | hk2
      · have hk1 : k = 1 := by omega
        subst hk1
        have hlen : 1 ≤ (decDigits (n / 10)).length :=
          List.length_pos.mpr (decDigits_ne_nil _)
        constructor
        · intro h; omega
        · intro h; simp only [pow_one] at h; omega
      · have hrec := ih (n / 10) (Nat.div_lt_self (by omega) (by omega)) (k - 1) (by omega)
        constructor
        · intro h
          have : (decDigits (n / 10)).length ≤ k - 1 := by omega
          have hdiv := hrec.mp this
          have : n < 10 ^ (k - 1) * 10 := by
            rw [Nat.div_lt_iff_lt_mul (by omega)] at hdiv
            exact hdiv
          calc n < 10 ^ (k - 1) * 10 := this
          _ = 10 ^ k := by rw [← pow_succ]; congr 1; omega
        · intro h
          have : n / 10 < 10 ^ (k - 1) := by
            rw [Nat.div_lt_iff_lt_mul (by omega)]
            calc n < 10 ^ k := h
            _ = 10 ^ (k - 1) * 10 := by rw [← pow_succ]; congr 1; omega
          have := hrec.mpr this
          omega

theorem fmt06_data (n : Nat) :
    (fmt06 n).data = List.replicate (6 - (decDigits n).length) '0' ++ decDigits n := rfl

theorem natOfDigits_fmt06 (n : Nat) : natOfDigits (fmt06 n).data = n := by
  rw [fmt06_data, natOfDigits_replicate_zero, natOfDigits_decDigits]

theorem fmt06_all_digit (n : Nat) : (fmt06 n).data.all Char.isDigit = true := by
  rw [fmt06_data, List.all_append]
  have hz : (List.replicate (6 - (decDigits n).length) '0').all Char.isDigit = true := by
    rw [List.all_eq_true]
    intro c hc
    rw [List.eq_of_mem_replicate hc]
    rfl
  rw [hz, decDigits_all_digit]
  rfl

theorem fmt06_ne_nil (n : Nat) : (fmt06 n).data ≠ [] := by
  rw [fmt06_data]
  intro h
  exact decDigits_ne_nil n (List.append_eq_nil.mp h).2

theorem fmt06_length (n : Nat) :
    (fmt06 n).data.length = max 6 (decDigits n).length := by
  rw [fmt06_data, List.length_append, List.length_replicate]
  omega

theorem fmt06_length_ge (n : Nat) : 6 ≤ (fmt06 n).data.length := by
  rw [fmt06_length]; omega

theorem fmt06_long_iff (n : Nat) : 6 < (fmt06 n).data.length → 999999 < n := by
  intro h
  rw [fmt06_length] at h
  have hlen : ¬((decDigits n).length ≤ 6) := by omega
  have := (decDigits_length_le_iff n 6 (by omega)).not.mp hlen
  have : ¬(n < 10 ^ 6) := by
    intro hn
    exact this ((decDigits_length_le_iff n 6 (by omega)).mpr hn |> fun h' => absurd h' (by omega)) |>.elim
  omega

theorem fmt06_eq_decDigits_of_long (n : Nat) (h : 999999 < n) :
    fmt06 n = String.mk (decDigits n) := by
  have h7 : ¬((decDigits n).length ≤ 6) := by
    intro hle
    have := (decDigits_length_le_iff n 6 (by omega)).mp hle
    omega
  show String.mk (List.replicate (6 - (decDigits n).length) '0' ++ decDigits n) = _
  have : 6 - (decDigits n).length = 0 := by omega
  rw [this]
  rfl

/-- Core computation law: `extract_num6` agrees with the specification's
digit-character description. -/
theorem extract_eq_canon (name : String) : extract_num6 name = canonSpec name := by
  unfold extract_num6 canonSpec
  by_cases h : digitRuns name.data = []
  · have hf : name.data.filter Char.isDigit = [] := (digitRuns_eq_nil _).mp h
    simp [h, hf]
  · have hf : name.data.filter Char.isDigit ≠ [] := fun hc => h ((digitRuns_eq_nil _).mpr hc)
    simp only [h, if_false, hf, if_false]
    have hjoin : (digitRuns name.data).flatten = name.data.filter Char.isDigit :=
      digitRuns_join_eq _
    have hall : ((digitRuns name.data).flatten).all Char.isDigit = true := by
      rw [hjoin, List.all_eq_true]
      intro c hc
      exact (List.mem_filter.mp hc).2
    have hint : pyInt (String.mk (digitRuns name.data).flatten) =
        some (natOfDigits (name.data.filter Char.isDigit)) := by
      unfold pyInt
      have hne : (String.mk (digitRuns name.data).flatten).data ≠ [] := by
        show (digitRuns name.data).flatten ≠ []
        rw [hjoin]; exact hf
      have hall' : (String.mk (digitRuns name.data).flatten).data.all Char.isDigit = true := hall
      rw [if_pos ⟨hne, hall'⟩]
      show some (natOfDigits (digitRuns name.data).flatten) = _
      rw [hjoin]
    rw [hint]

theorem extract_num6_of_digits (name : String)
    (h : name.data.filter Char.isDigit ≠ []) :
    extract_num6 name = some (fmt06 (natOfDigits (name.data.filter Char.isDigit))) := by
  rw [extract_eq_canon]
  unfold canonSpec
  simp [h]

theorem extract_num6_of_no_digits (name : String)
    (h : name.data.filter Char.isDigit = []) :
    extract_num6 name = none := by
  rw [extract_eq_canon]
  unfold canonSpec
  simp [h]

/-! ### Pathlib name handling -/

/-- Index, counted from the end, of the first `.` in a reversed character
list: the model of `name.rfind(".")` used by `pathlib` to locate the
suffix. -/
def revDotIdx : List Char → Option Nat
  | [] => none
  | c :: cs => if c = '.' then some 0 else (revDotIdx cs).map (· + 1)

/-- `pathlib.PurePath.suffix`: the name from its last dot onward, provided
that dot is neither the first nor the last character; otherwise empty. -/
def pySuffix (name : String) : String :=
  match revDotIdx name.data.reverse with
  | none => ""
  | some j =>
    let i := name.data.length - 1 - j
    if 0 < i ∧ i < name.data.length - 1 then String.mk (name.data.drop i) else ""

/-- Python `str.lower()` (ASCII case folding suffices for the suffixes the
walk can produce, which consist of `.jpg`). -/
def pyLower (s : String) : String :=
  String.mk (s.data.map Char.toLower)

theorem strData_append (s t : String) : (s ++ t).data = s.data ++ t.data := rfl

theorem revDotIdx_gpj (r : List Char) :
    revDotIdx ('g' :: 'p' :: 'j' :: '.' :: r) = some 3 := by
  show revDotIdx ('g' :: 'p' :: 'j' :: '.' :: r) = some 3
  rw [revDotIdx, if_neg (by decide)]
  rw [revDotIdx, if_neg (by decide)]
  rw [revDotIdx, if_neg (by decide)]
  rw [revDotIdx, if_pos rfl]
  rfl

/-- For a name of the shape `pre ++ ".jpg"` with nonempty `pre`, the
pathlib suffix is `".jpg"`. -/
theorem pySuffix_jpg (name : String) (pre : List Char)
    (hdata : name.data = pre ++ ['.', 'j', 'p', 'g']) (hpre : pre ≠ []) :
    pySuffix name = ".jpg" := by
  unfold pySuffix
  rw [hdata]
  rw [List.reverse_append]
  have hrev : (['.', 'j', 'p', 'g'] : List Char).reverse = ['g', 'p', 'j', '.'] := rfl
  rw [hrev]
  show (match revDotIdx ('g' :: 'p' :: 'j' :: '.' :: pre.reverse) with
    | none => ""
    | some j =>
      let i := (pre ++ ['.', 'j', 'p', 'g']).length - 1 - j
      if 0 < i ∧ i < (pre ++ ['.', 'j', 'p', 'g']).length - 1 then
        String.mk ((pre ++ ['.', 'j', 'p', 'g']).drop i)
      else "") = ".jpg"
  rw [revDotIdx_gpj]
  have hlen : (pre ++ ['.', 'j', 'p', 'g']).length = pre.length + 4 := by
    rw [List.length_append]; rfl
  have hpos : 0 < pre.length := List.length_pos.mpr hpre
  show (let i := (pre ++ ['.', 'j', 'p', 'g']).length - 1 - 3
    if 0 < i ∧ i < (pre ++ ['.', 'j', 'p', 'g']).length - 1 then
      String.mk ((pre ++ ['.', 'j', 'p', 'g']).drop i)
    else "") = ".jpg"
  have hi : (pre ++ ['.', 'j', 'p', 'g']).length - 1 - 3 = pre.length := by omega
  rw [hi]
  rw [if_pos ⟨hpos, by omega⟩]
  have : (pre ++ ['.', 'j', 'p', 'g']).drop pre.length = ['.', 'j', 'p', 'g'] :=
    List.drop_left pre _
  rw [this]

theorem pyLower_jpg : pyLower ".jpg" = ".jpg" := by decide

/-- The canonical basename built from `fmt06 v` and the `.jpg` suffix is a
fixed point of digit extraction: its digits are exactly the padded decimal
string, whose value is `v` again. -/
theorem extract_num6_canonical (v : Nat) :
    extract_num6 (fmt06 v ++ ".jpg") = some (fmt06 v) := by
  have hdata : (fmt06 v ++ ".jpg").data = (fmt06 v).data ++ ['.', 'j', 'p', 'g'] := by
    rw [strData_append]
  have hfilter : (fmt06 v ++ ".jpg").data.filter Char.isDigit = (fmt06 v).data := by
    rw [hdata, List.filter_append]
    have h₁ : (fmt06 v).data.filter Char.isDigit = (fmt06 v).data :=
      List.filter_eq_self.mpr (fun a ha => (List.all_eq_true.mp (fmt06_all_digit v)) a ha)
    have h₂ : (['.', 'j', 'p', 'g'] : List Char).filter Char.isDigit = [] := by decide
    rw [h₁, h₂, List.append_nil]
  have hne : (fmt06 v ++ ".jpg").data.filter Char.isDigit ≠ [] := by
    rw [hfilter]; exact fmt06_ne_nil v
  rw [extract_num6_of_digits _ hne, hfilter, natOfDigits_fmt06]

/-- The name of the canonical target has the `pre ++ ".jpg"` shape with a
nonempty, all-digit `pre`. -/
theorem canonical_name_shape (v : Nat) :
    (fmt06 v ++ ".jpg").data = (fmt06 v).data ++ ['.', 'j', 'p', 'g'] := by
  rw [strData_append]

theorem pySuffix_canonical (v : Nat) : pySuffix (fmt06 v ++ ".jpg") = ".jpg" :=
  pySuffix_jpg _ _ (canonical_name_shape v) (fmt06_ne_nil v)

/-! ### The filesystem model -/

/-- A filesystem path, split as the directory holding the entry and the
entry's basename.  `p.with_name(x)` is `⟨p.dir, x⟩`, `p.parent` is
`p.dir`. -/
structure Path where
  dir : String
  name : String
deriving DecidableEq

/-- What a directory entry is: a regular file, a symbolic link carrying its
raw target string, or anything else (directory, socket, ...). -/
inductive FKind where
  | file : FKind
  | link : String → FKind
  | other : FKind
deriving DecidableEq

/-- A filesystem subtree: the entries under the root, as an association
list from path to kind.  List order is the `rglob` walk order. -/
abbrev FS := List (Path × FKind)

/-- The entry at `p`, if any. -/
def lookupFS (fs : FS) (p : Path) : Option FKind :=
  match fs.find? (fun e => decide (e.1 = p)) with
  | some e => some e.2
  | none => none

/-- Well-formedness: each path holds at most one entry. -/
def keysNodup (fs : FS) : Prop := (fs.map Prod.fst).Nodup

instance (fs : FS) : Decidable (keysNodup fs) :=
  inferInstanceAs (Decidable ((fs.map Prod.fst).Nodup))

/-- Interpret a symlink's raw target string relative to the directory that
holds the link, as the OS does when following the link: a target without a
separator names a sibling; otherwise the text before the last `/` is the
directory part (absolute if the target starts with `/`, else appended to
the link's directory).  Dot segments are not normalized; the tool itself
only ever writes sibling targets. -/
def targetPath (dir : String) (t : String) : Path :=
  if ('/' : Char) ∈ t.data then
    let nm := (t.data.reverse.takeWhile (fun c => !decide (c = '/'))).reverse
    let dp := (t.data.reverse.drop (nm.length + 1)).reverse
    if t.data.head? = some '/' then ⟨String.mk dp, String.mk nm⟩
    else ⟨dir ++ "/" ++ String.mk dp, String.mk nm⟩
  else ⟨dir, t⟩

/-- Follow symlinks starting at `p` for at most `fuel` hops and report the
kind of the entry reached: `none` for a missing path or a chain that
exhausts the fuel (the `ELOOP` outcome, which `Path.exists()` reports as
`False`). -/
def resolveKind (fs : FS) : Nat → Path → Option FKind
  | 0, _ => none
  | fuel + 1, p =>
    match lookupFS fs p with
    | some (FKind.link t) => resolveKind fs fuel (targetPath p.dir t)
    | k => k

/-- `Path.exists()`: follows symlinks (at most 40 hops, the Linux limit). -/
def existsAt (fs : FS) (p : Path) : Bool :=
  (resolveKind fs 40 p).isSome

/-- `Path.is_file()`: follows symlinks and asks for a regular file. -/
def isFileAt (fs : FS) (p : Path) : Bool :=
  decide (resolveKind fs 40 p = some FKind.file)

/-- `Path.is_symlink()`: asks about the entry itself, without following. -/
def isSymlinkAt (fs : FS) (p : Path) : Bool :=
  match lookupFS fs p with
  | some (FKind.link _) => true
  | _ => false

theorem resolveKind_succ (fs : FS) (fuel : Nat) (p : Path) :
    resolveKind fs (fuel + 1) p =
      match lookupFS fs p with
      | some (FKind.link t) => resolveKind fs fuel (targetPath p.dir t)
      | k => k := rfl

/-- The conjunction tested at line 88 of the source,
`q.exists() and q.is_file() and not q.is_symlink()`, holds exactly when the
entry at `q` is a plain regular file. -/
theorem plainFile_iff (fs : FS) (q : Path) :
    (existsAt fs q && isFileAt fs q && !isSymlinkAt fs q) = true ↔
      lookupFS fs q = some FKind.file := by
  cases h : lookupFS fs q with
  | none =>
    simp only [existsAt, isFileAt, isSymlinkAt]
    rw [show (40 : Nat) = 39 + 1 from rfl, resolveKind_succ, h]
    simp
  | some k =>
    cases k with
    | file =>
      simp only [existsAt, isFileAt, isSymlinkAt]
      rw [show (40 : Nat) = 39 + 1 from rfl, resolveKind_succ, h]
      simp
    | link t =>
      simp only [existsAt, isFileAt, isSymlinkAt]
      rw [h]
      simp
    | other =>
      simp only [existsAt, isFileAt, isSymlinkAt]
      rw [show (40 : Nat) = 39 + 1 from rfl, resolveKind_succ, h]
      simp

/-- The `rglob("*.jpg")` filter: basenames ending in the literal,
case-sensitive suffix `.jpg`. -/
def jpgName (name : String) : Bool :=
  (['.', 'j', 'p', 'g'] : List Char).isSuffixOf name.data

/-- `root.rglob("*.jpg")`: the paths of all matching entries, in walk
order. -/
def walkJpg (fs : FS) : List Path :=
  (fs.filter (fun e => jpgName e.1.name)).map Prod.fst

/-- `Path.rename` / POSIX `rename(2)`: move the entry at `old` onto `new`,
silently replacing whatever entry was at `new`.  Modeled in place; a
missing `old` is left to the caller (the tool only renames entries it has
just walked). -/
def fsRename (fs : FS) (old new : Path) : FS :=
  if old = new then fs
  else
    match lookupFS fs old with
    | none => fs
    | some _ =>
      (fs.filter (fun e => !decide (e.1 = new))).map
        (fun e => if e.1 = old then (new, e.2) else e)

/-- `p.unlink()` followed by `os.symlink(rel, p)` (lines 96-98): the
directory ends up holding a link entry at `p` with target `rel`; modeled
as an in-place update, since a directory's contents are a set and the
model's list order is not an observable of the real filesystem. -/
def fsSetLink (fs : FS) (p : Path) (rel : String) : FS :=
  fs.map (fun e => if e.1 = p then (p, FKind.link rel) else e)

/-! ### Pass 1: `normalize_real_files` (lines 25-60) -/

/-- The decision the scan-loop body (lines 31-49) takes for one walked
entry: skip (`none`), queue a rename (`inl`), or record a conflict
(`inr`).  The body skips symlinks, skips non-regular files, skips names
without digits, skips already-canonical names, records a conflict when the
intended target exists, and otherwise queues `(p, newp)`. -/
def realOut (fs : FS) (p : Path) : Option ((Path × Path) ⊕ (Path × Path)) :=
  if isSymlinkAt fs p then none
  else if !isFileAt fs p then none
  else
    match extract_num6 p.name with
    | none => none
    | some num6 =>
      let newp : Path := ⟨p.dir, num6 ++ pyLower (pySuffix p.name)⟩
      if p.name = newp.name then none
      else if existsAt fs newp then some (Sum.inr (p, newp))
      else some (Sum.inl (p, newp))

/-- One iteration of the scan loop, extending the accumulated
`(changes, conflicts)`. -/
def realScanStep (fs : FS) (acc : List (Path × Path) × List (Path × Path)) (p : Path) :
    List (Path × Path) × List (Path × Path) :=
  match realOut fs p with
  | none => acc
  | some (Sum.inl c) => (acc.1 ++ [c], acc.2)
  | some (Sum.inr c) => (acc.1, acc.2 ++ [c])

/-- The scan phase of `normalize_real_files` (lines 28-51): the queued
renames and the recorded conflicts.  No mutation happens during the scan. -/
def scanReal (fs : FS) : List (Path × Path) × List (Path × Path) :=
  (walkJpg fs).foldl (realScanStep fs) ([], [])

/-- The apply loop (lines 55-58): perform the queued renames in order. -/
def applyRenames : FS → List (Path × Path) → FS
  | fs, [] => fs
  | fs, (o, n) :: rest => applyRenames (fsRename fs o n) rest

/-- `normalize_real_files(root, dry_run)`: returns the records of both
lists and the resulting tree (unchanged when `dry_run`). -/
def normalize_real_files (fs : FS) (dry_run : Bool) :
    (List (Path × Path) × List (Path × Path)) × FS :=
  let cc := scanReal fs
  (cc, if dry_run then fs else applyRenames fs cc.1)

/-! ### Pass 2: `fix_symlinks` (lines 62-110) -/

/-- `os.path.relpath(q, start)`.  The tool only ever relativizes a sibling
(`q.dir = start`, because the canonical target is built with `with_name`),
where the relative path is the basename. -/
def relpathFrom (start : String) (q : Path) : String :=
  if q.dir = start then q.name else q.dir ++ "/" ++ q.name

/-- What the loop body of `fix_symlinks` decides for one walked entry. -/
inductive LinkAction where
  | skip : LinkAction
  | correct : LinkAction
  | retarget : String → LinkAction
  | broken : Option String → Path → LinkAction
deriving DecidableEq

/-- The canonical sibling path `p.with_name(num6 + p.suffix.lower())`
(lines 40 and 78). -/
def wantOf (p : Path) (num6 : String) : Path :=
  ⟨p.dir, num6 ++ pyLower (pySuffix p.name)⟩

/-- `os.readlink(p)` for an entry known to the directory walk: the raw
target when `p` is a symlink.  (The `OSError → None` fallback of lines
81-84 corresponds to the non-link arms, which the callers never reach
because they test `is_symlink` first.) -/
def readlinkPure (fs : FS) (p : Path) : Option String :=
  match lookupFS fs p with
  | some (FKind.link t) => some t
  | _ => none

/-- The decision the `fix_symlinks` loop body (lines 69-106) takes for
entry `p` against tree `fs`: skip non-symlinks and digitless names; when
the canonical sibling passes the line-88 test, retarget unless the raw
target already equals the relative path; otherwise record a broken link. -/
def classifyLink (fs : FS) (p : Path) : LinkAction :=
  if !isSymlinkAt fs p then LinkAction.skip
  else
    match extract_num6 p.name with
    | none => LinkAction.skip
    | some num6 =>
      if existsAt fs (wantOf p num6) && isFileAt fs (wantOf p num6) &&
          !isSymlinkAt fs (wantOf p num6) then
        if readlinkPure fs p ≠ some (relpathFrom p.dir (wantOf p num6)) then
          LinkAction.retarget (relpathFrom p.dir (wantOf p num6))
        else LinkAction.correct
      else LinkAction.broken (readlinkPure fs p) (wantOf p num6)

/-- Accumulated state of the `fix_symlinks` loop: its three record lists
and the (possibly mutated) tree. -/
structure LinkState where
  fixed : List Path
  retargeted : List (Path × String)
  broken : List (Path × Option String × Path)
  fs : FS
deriving DecidableEq

/-- One iteration of the `fix_symlinks` loop: act on the classification,
mutating the tree only for a retarget with `dry_run` off. -/
def linkStep (dry_run : Bool) (st : LinkState) (p : Path) : LinkState :=
  match classifyLink st.fs p with
  | LinkAction.skip => st
  | LinkAction.correct => { st with fixed := st.fixed ++ [p] }
  | LinkAction.retarget rel =>
    { st with
      retargeted := st.retargeted ++ [(p, rel)],
      fs := if dry_run then st.fs else fsSetLink st.fs p rel }
  | LinkAction.broken cur want => { st with broken := st.broken ++ [(p, cur, want)] }

/-- `fix_symlinks(root, dry_run)` (lines 62-110). -/
def fix_symlinks (fs : FS) (dry_run : Bool) : LinkState :=
  (walkJpg fs).foldl (linkStep dry_run) ⟨[], [], [], fs⟩

/-! ### The driver (`main`, lines 112-139) -/

/-- The five counts and the capped example list printed by the SUMMARY
block (lines 130-139). -/
structure Summary where
  renames : Nat
  conflicts : Nat
  alreadyCorrect : Nat
  retargets : Nat
  brokenCount : Nat
  examples : List (Path × Option String × Path)
deriving DecidableEq

def mkSummary (changes conflicts : List (Path × Path)) (st : LinkState) : Summary :=
  ⟨changes.length, conflicts.length, st.fixed.length, st.retargeted.length,
   st.broken.length, st.broken.take 20⟩

/-- Everything a run produces. -/
structure RunResult where
  changes : List (Path × Path)
  conflicts : List (Path × Path)
  fixed : List Path
  retargeted : List (Path × String)
  broken : List (Path × Option String × Path)
  summary : Summary
  fs : FS
deriving DecidableEq

/-- `main` on an existing root: pass 1, then pass 2 over the tree pass 1
produced, then the summary; `dry_run` is the negation of `--apply`. -/
def runTool (fs : FS) (applyFlag : Bool) : RunResult :=
  let dry := !applyFlag
  let r1 := normalize_real_files fs dry
  let st := fix_symlinks r1.2 dry
  ⟨r1.1.1, r1.1.2, st.fixed, st.retargeted, st.broken,
   mkSummary r1.1.1 r1.1.2 st, st.fs⟩

example : extract_num6 "v0_63.jpg" = some "000063" := by decide

example : extract_num6 "photo.jpg" = none := by decide

example :
    (runTool [(⟨"/r", "a63.jpg"⟩, FKind.file), (⟨"/r", "63x.jpg"⟩, FKind.link "zz")] true).retargeted
      = [(⟨"/r", "63x.jpg"⟩, "000063.jpg")] := by decide

example :
    (runTool [(⟨"/r", "a63.jpg"⟩, FKind.file), (⟨"/r", "63x.jpg"⟩, FKind.link "zz")] false).broken.length
      = 1 := by decide

/-! ### Lookup lemmas for the filesystem primitives -/

theorem lookupFS_nil (q : Path) : lookupFS [] q = none := rfl

theorem lookupFS_cons (e : Path × FKind) (fs : FS) (q : Path) :
    lookupFS (e :: fs) q = if e.1 = q then some e.2 else lookupFS fs q := by
  unfold lookupFS
  by_cases h : e.1 = q
  · rw [List.find?_cons_of_pos _ (by simpa using h), if_pos h]
  · rw [List.find?_cons_of_neg _ (by simpa using h), if_neg h]

theorem lookupFS_fsSetLink (fs : FS) (p : Path) (rel : String) (q : Path) :
    lookupFS (fsSetLink fs p rel) q =
      if q = p then (lookupFS fs p).map (fun _ => FKind.link rel)
      else lookupFS fs q := by
  induction fs with
  | nil => by_cases h : q = p <;> simp [fsSetLink, lookupFS_nil, h]
  | cons e fs ih =>
    show lookupFS ((if e.1 = p then (p, FKind.link rel) else e) :: fsSetLink fs p rel) q = _
    by_cases he : e.1 = p <;> by_cases hq : q = p <;> by_cases heq : e.1 = q <;>
      simp_all [lookupFS_cons]

/-- The body of `fsRename` once `old` is known to be present and distinct
from `new`. -/
def renameCore (fs : FS) (old new : Path) : FS :=
  (fs.filter (fun e => !decide (e.1 = new))).map
    (fun e => if e.1 = old then (new, e.2) else e)

theorem fsRename_eq_core (fs : FS) (o n : Path) (ho : o ≠ n) (k : FKind)
    (hk : lookupFS fs o = some k) : fsRename fs o n = renameCore fs o n := by
  unfold fsRename
  rw [if_neg ho, hk]
  rfl

theorem fsRename_of_absent (fs : FS) (o n : Path) (hk : lookupFS fs o = none) :
    fsRename fs o n = fs := by
  unfold fsRename
  by_cases ho : o = n
  · rw [if_pos ho]
  · rw [if_neg ho, hk]

theorem lookupFS_renameCore (fs : FS) (o n q : Path) (ho : o ≠ n) :
    lookupFS (renameCore fs o n) q =
      if q = n then lookupFS fs o
      else if q = o then none
      else lookupFS fs q := by
  induction fs with
  | nil =>
    by_cases h1 : q = n
    · simp [renameCore, lookupFS_nil, h1]
    · by_cases h2 : q = o <;> simp [renameCore, lookupFS_nil, h1, h2]
  | cons e fs ih =>
    show lookupFS (((e :: fs).filter (fun e => !decide (e.1 = n))).map
        (fun e => if e.1 = o then (n, e.2) else e)) q = _
    rw [List.filter_cons]
    by_cases hen : e.1 = n <;> by_cases heo : e.1 = o <;>
      by_cases h1 : q = n <;> by_cases h2 : q = o <;> by_cases heq : e.1 = q <;>
      simp_all [renameCore, lookupFS_cons] <;>
      first
        | exact fun hh => ho hh.symm
        | exact fun hh => absurd hh.symm h1

theorem lookupFS_fsRename_other (fs : FS) (o n q : Path) (h1 : q ≠ o) (h2 : q ≠ n) :
    lookupFS (fsRename fs o n) q = lookupFS fs q := by
  unfold fsRename
  by_cases ho : o = n
  · rw [if_pos ho]
  · rw [if_neg ho]
    cases hk : lookupFS fs o with
    | none => rfl
    | some k =>
      show lookupFS (renameCore fs o n) q = _
      rw [lookupFS_renameCore fs o n q ho, if_neg h2, if_neg h1]

theorem keysNodup_cons (e : Path × FKind) (fs : FS) :
    keysNodup (e :: fs) ↔ (∀ k, (e.1, k) ∉ fs) ∧ keysNodup fs := by
  unfold keysNodup
  rw [List.map_cons, List.nodup_cons]
  constructor
  · rintro ⟨hn, ht⟩
    refine ⟨fun k hk => hn ?_, ht⟩
    exact List.mem_map.mpr ⟨(e.1, k), hk, rfl⟩
  · rintro ⟨hn, ht⟩
    refine ⟨fun hm => ?_, ht⟩
    rcases List.mem_map.mp hm with ⟨e', he', hfst⟩
    exact hn e'.2 (by rw [← hfst]; exact he')

theorem lookupFS_eq_of_mem (fs : FS) (p : Path) (k : FKind) (hnd : keysNodup fs)
    (hm : (p, k) ∈ fs) : lookupFS fs p = some k := by
  induction fs with
  | nil => cases hm
  | cons e fs ih =>
    rw [lookupFS_cons]
    rcases List.mem_cons.mp hm with he | hm'
    · rw [← he]
      rw [if_pos rfl]
    · rcases (keysNodup_cons e fs).mp hnd with ⟨hn, ht⟩
      by_cases h : e.1 = p
      · exact absurd hm' (h ▸ hn k)
      · rw [if_neg h]
        exact ih ht hm'

theorem mem_of_lookupFS (fs : FS) (p : Path) (k : FKind) (h : lookupFS fs p = some k) :
    (p, k) ∈ fs := by
  induction fs with
  | nil => cases h
  | cons e fs ih =>
    rw [lookupFS_cons] at h
    by_cases he : e.1 = p
    · rw [if_pos he] at h
      have heq : e = (p, k) := by
        have h1 : e.1 = p := he
        have h2 : e.2 = k := by injection h
        calc e = (e.1, e.2) := rfl
        _ = (p, k) := by rw [h1, h2]
      exact heq ▸ List.mem_cons_self _ _
    · rw [if_neg he] at h
      exact List.mem_cons_of_mem _ (ih h)

theorem lookupFS_isSome_of_mem (fs : FS) (p : Path) (k : FKind) (hm : (p, k) ∈ fs) :
    ∃ k', lookupFS fs p = some k' := by
  induction fs with
  | nil => cases hm
  | cons e fs ih =>
    rw [lookupFS_cons]
    by_cases he : e.1 = p
    · exact ⟨e.2, by rw [if_pos he]⟩
    · rcases List.mem_cons.mp hm with hh | hm'
      · exact absurd (by rw [← hh]) he
      · rw [if_neg he]
        exact ih hm'

theorem walkJpg_sublist_keys (fs : FS) : List.Sublist (walkJpg fs) (fs.map Prod.fst) :=
  List.Sublist.map Prod.fst (List.filter_sublist fs)

theorem walkJpg_nodup (fs : FS) (h : keysNodup fs) : (walkJpg fs).Nodup :=
  List.Nodup.sublist (walkJpg_sublist_keys fs) h

theorem mem_walkJpg (fs : FS) (p : Path) :
    p ∈ walkJpg fs ↔ (∃ k, (p, k) ∈ fs) ∧ jpgName p.name = true := by
  simp only [walkJpg, List.mem_map, List.mem_filter]
  constructor
  · rintro ⟨e, ⟨he, hj⟩, rfl⟩
    exact ⟨⟨e.2, he⟩, hj⟩
  · rintro ⟨⟨k, hm⟩, hj⟩
    exact ⟨(p, k), ⟨hm, hj⟩, rfl⟩

/-! ### Characterization of the pass-1 scan -/

/-- The rename the scan queues for `p`, if any. -/
def renameOut (fs : FS) (p : Path) : Option (Path × Path) :=
  match realOut fs p with
  | some (Sum.inl c) => some c
  | _ => none

/-- The conflict the scan records for `p`, if any. -/
def conflictOut (fs : FS) (p : Path) : Option (Path × Path) :=
  match realOut fs p with
  | some (Sum.inr c) => some c
  | _ => none

theorem realScanStep_eq (fs : FS) (acc : List (Path × Path) × List (Path × Path)) (p : Path) :
    realScanStep fs acc p =
      (acc.1 ++ (renameOut fs p).toList, acc.2 ++ (conflictOut fs p).toList) := by
  unfold realScanStep renameOut conflictOut
  cases h : realOut fs p with
  | none => simp
  | some c => cases c <;> simp

theorem foldl_realScanStep (fs : FS) :
    ∀ (w : List Path) (acc : List (Path × Path) × List (Path × Path)),
      w.foldl (realScanStep fs) acc =
        (acc.1 ++ w.filterMap (renameOut fs), acc.2 ++ w.filterMap (conflictOut fs)) := by
  intro w
  induction w with
  | nil => intro acc; simp
  | cons p w ih =>
    intro acc
    rw [List.foldl_cons, ih, realScanStep_eq]
    rw [List.filterMap_cons, List.filterMap_cons]
    cases h1 : renameOut fs p <;> cases h2 : conflictOut fs p <;> simp

theorem scanReal_eq (fs : FS) :
    scanReal fs = ((walkJpg fs).filterMap (renameOut fs),
                   (walkJpg fs).filterMap (conflictOut fs)) := by
  unfold scanReal
  rw [foldl_realScanStep]
  simp

/-! ### Inversion lemmas for the per-entry scan decision -/

theorem isSymlinkAt_of_lookup (fs : FS) (p : Path) (t : String)
    (h : lookupFS fs p = some (FKind.link t)) : isSymlinkAt fs p = true := by
  unfold isSymlinkAt
  rw [h]

theorem isSymlinkAt_false_of_file (fs : FS) (p : Path)
    (h : lookupFS fs p = some FKind.file) : isSymlinkAt fs p = false := by
  unfold isSymlinkAt
  rw [h]

theorem isFileAt_of_file (fs : FS) (p : Path)
    (h : lookupFS fs p = some FKind.file) : isFileAt fs p = true := by
  unfold isFileAt
  rw [show (40 : Nat) = 39 + 1 from rfl, resolveKind_succ, h]
  rfl

theorem isFileAt_iff_of_not_symlink (fs : FS) (p : Path)
    (hs : isSymlinkAt fs p = false) :
    (isFileAt fs p = true ↔ lookupFS fs p = some FKind.file) := by
  cases h : lookupFS fs p with
  | none =>
    unfold isFileAt
    rw [show (40 : Nat) = 39 + 1 from rfl, resolveKind_succ, h]
    simp
  | some k =>
    cases k with
    | file =>
      unfold isFileAt
      rw [show (40 : Nat) = 39 + 1 from rfl, resolveKind_succ, h]
      simp
    | link t => exact absurd (isSymlinkAt_of_lookup fs p t h) (by rw [hs]; simp)
    | other =>
      unfold isFileAt
      rw [show (40 : Nat) = 39 + 1 from rfl, resolveKind_succ, h]
      simp

theorem renameOut_some (fs : FS) (p : Path) (c : Path × Path)
    (h : renameOut fs p = some c) :
    c.1 = p ∧ lookupFS fs p = some FKind.file ∧
      (∃ num6, extract_num6 p.name = some num6 ∧
        c.2 = ⟨p.dir, num6 ++ pyLower (pySuffix p.name)⟩) ∧
      p.name ≠ c.2.name ∧ existsAt fs c.2 = false := by
  unfold renameOut realOut at h
  by_cases hs : isSymlinkAt fs p = true
  · rw [if_pos hs] at h; cases h
  · rw [if_neg hs] at h
    have hs' : isSymlinkAt fs p = false := by
      cases hb : isSymlinkAt fs p
      · rfl
      · exact absurd hb hs
    by_cases hf : isFileAt fs p = true
    · rw [show (!isFileAt fs p) = false from by rw [hf]; rfl, if_neg (by simp)] at h
      have hfile : lookupFS fs p = some FKind.file :=
        (isFileAt_iff_of_not_symlink fs p hs').mp hf
      cases hx : extract_num6 p.name with
      | none => rw [hx] at h; cases h
      | some num6 =>
        rw [hx] at h
        simp only at h
        by_cases hnm : p.name = (⟨p.dir, num6 ++ pyLower (pySuffix p.name)⟩ : Path).name
        · rw [if_pos hnm] at h; cases h
        · rw [if_neg hnm] at h
          by_cases hex : existsAt fs ⟨p.dir, num6 ++ pyLower (pySuffix p.name)⟩ = true
          · rw [if_pos hex] at h; cases h
          · rw [if_neg hex] at h
            have hc : c = (p, ⟨p.dir, num6 ++ pyLower (pySuffix p.name)⟩) := by
              injection h with hh; exact hh.symm
            subst hc
            refine ⟨rfl, hfile, ⟨num6, rfl, rfl⟩, hnm, ?_⟩
            cases hb : existsAt fs ⟨p.dir, num6 ++ pyLower (pySuffix p.name)⟩
            · rfl
            · exact absurd hb hex
    · rw [show (!isFileAt fs p) = true from by
          cases hb : isFileAt fs p
          · rfl
          · exact absurd hb hf, if_pos rfl] at h
      cases h

theorem conflictOut_some (fs : FS) (p : Path) (c : Path × Path)
    (h : conflictOut fs p = some c) :
    c.1 = p ∧ lookupFS fs p = some FKind.file ∧
      (∃ num6, extract_num6 p.name = some num6 ∧
        c.2 = ⟨p.dir, num6 ++ pyLower (pySuffix p.name)⟩) ∧
      p.name ≠ c.2.name ∧ existsAt fs c.2 = true := by
  unfold conflictOut realOut at h
  by_cases hs : isSymlinkAt fs p = true
  · rw [if_pos hs] at h; cases h
  · rw [if_neg hs] at h
    have hs' : isSymlinkAt fs p = false := by
      cases hb : isSymlinkAt fs p
      · rfl
      · exact absurd hb hs
    by_cases hf : isFileAt fs p = true
    · rw [show (!isFileAt fs p) = false from by rw [hf]; rfl, if_neg (by simp)] at h
      have hfile : lookupFS fs p = some FKind.file :=
        (isFileAt_iff_of_not_symlink fs p hs').mp hf
      cases hx : extract_num6 p.name with
      | none => rw [hx] at h; cases h
      | some num6 =>
        rw [hx] at h
        simp only at h
        by_cases hnm : p.name = (⟨p.dir, num6 ++ pyLower (pySuffix p.name)⟩ : Path).name
        · rw [if_pos hnm] at h; cases h
        · rw [if_neg hnm] at h
          by_cases hex : existsAt fs ⟨p.dir, num6 ++ pyLower (pySuffix p.name)⟩ = true
          · rw [if_pos hex] at h
            have hc : c = (p, ⟨p.dir, num6 ++ pyLower (pySuffix p.name)⟩) := by
              injection h with hh; exact hh.symm
            subst hc
            exact ⟨rfl, hfile, ⟨num6, rfl, rfl⟩, hnm, hex⟩
          · rw [if_neg hex] at h; cases h
    · rw [show (!isFileAt fs p) = true from by
          cases hb : isFileAt fs p
          · rfl
          · exact absurd hb hf, if_pos rfl] at h
      cases h

/-- A basename is canonical when extraction re-derives it exactly:
either it has no digits, or it is the extracted 6-digit string followed by
the lowercased suffix. -/
def canonicalJpg (name : String) : Prop :=
  extract_num6 name = none ∨
    ∃ num6, extract_num6 name = some num6 ∧ name = num6 ++ pyLower (pySuffix name)

theorem realOut_none_of_canonical (fs : FS) (p : Path)
    (hk : lookupFS fs p = some FKind.file) (hc : canonicalJpg p.name) :
    realOut fs p = none := by
  unfold realOut
  rw [show isSymlinkAt fs p = false from isSymlinkAt_false_of_file fs p hk]
  rw [show isFileAt fs p = true from isFileAt_of_file fs p hk]
  rw [if_neg (by simp)]
  rw [if_neg (by simp)]
  rcases hc with hno | ⟨num6, hx, hname⟩
  · rw [hno]
  · rw [hx]
    show (if p.name = (⟨p.dir, num6 ++ pyLower (pySuffix p.name)⟩ : Path).name then none
          else if existsAt fs ⟨p.dir, num6 ++ pyLower (pySuffix p.name)⟩ = true
          then some (Sum.inr (p, (⟨p.dir, num6 ++ pyLower (pySuffix p.name)⟩ : Path)))
          else some (Sum.inl (p, (⟨p.dir, num6 ++ pyLower (pySuffix p.name)⟩ : Path)))) = none
    rw [if_pos hname]

theorem realOut_none_of_not_file (fs : FS) (p : Path)
    (hk : ¬(lookupFS fs p = some FKind.file)) : realOut fs p = none := by
  unfold realOut
  by_cases hs : isSymlinkAt fs p = true
  · rw [if_pos hs]
  · have hs' : isSymlinkAt fs p = false := by
      cases hb : isSymlinkAt fs p
      · rfl
      · exact absurd hb hs
    rw [if_neg hs]
    have hf : isFileAt fs p = false := by
      cases hb : isFileAt fs p
      · rfl
      · exact absurd ((isFileAt_iff_of_not_symlink fs p hs').mp hb) hk
    rw [show (!isFileAt fs p) = true from by rw [hf]; rfl, if_pos rfl]

/-! ### Shape congruence: retargeting changes only link targets, and the
loop-body decision depends only on entry kinds plus the entry's own raw
target -/

theorem plainFile_eq_decide (fs : FS) (q : Path) :
    (existsAt fs q && isFileAt fs q && !isSymlinkAt fs q) =
      decide (lookupFS fs q = some FKind.file) := by
  by_cases h : lookupFS fs q = some FKind.file
  · rw [decide_eq_true h]
    exact (plainFile_iff fs q).mpr h
  · rw [decide_eq_false h]
    cases hb : (existsAt fs q && isFileAt fs q && !isSymlinkAt fs q) with
    | false => rfl
    | true => exact absurd ((plainFile_iff fs q).mp hb) h

/-- Forget a link's target, keeping only the entry's kind. -/
def kindShape : Option FKind → Option FKind
  | some (FKind.link _) => some (FKind.link "")
  | k => k

/-- Whether a (possibly absent) entry is a link, as a function of shape. -/
def shapeIsLink : Option FKind → Bool
  | some (FKind.link _) => true
  | _ => false

theorem isSymlinkAt_eq_shape (fs : FS) (q : Path) :
    isSymlinkAt fs q = shapeIsLink (lookupFS fs q) := rfl

theorem shapeIsLink_congr (x y : Option FKind) (h : kindShape x = kindShape y) :
    shapeIsLink x = shapeIsLink y := by
  rcases x with _ | kx <;> rcases y with _ | ky
  · rfl
  · cases ky <;> simp_all [kindShape, shapeIsLink]
  · cases kx <;> simp_all [kindShape, shapeIsLink]
  · cases kx <;> cases ky <;> simp_all [kindShape, shapeIsLink]

theorem kindShape_file_iff (x y : Option FKind) (h : kindShape x = kindShape y) :
    x = some FKind.file ↔ y = some FKind.file := by
  rcases x with _ | kx <;> rcases y with _ | ky
  · simp
  · cases ky <;> simp_all [kindShape]
  · cases kx <;> simp_all [kindShape]
  · cases kx <;> cases ky <;> simp_all [kindShape]

theorem classifyLink_congr (fs fs' : FS) (p : Path)
    (hs : ∀ q, kindShape (lookupFS fs q) = kindShape (lookupFS fs' q))
    (hp : lookupFS fs p = lookupFS fs' p) :
    classifyLink fs p = classifyLink fs' p := by
  unfold classifyLink readlinkPure
  rw [show isSymlinkAt fs p = isSymlinkAt fs' p from by
        rw [isSymlinkAt_eq_shape, isSymlinkAt_eq_shape, hp]]
  rw [hp]
  cases hx : extract_num6 p.name with
  | none => rfl
  | some num6 =>
    dsimp only
    rw [show (existsAt fs (wantOf p num6) && isFileAt fs (wantOf p num6) &&
          !isSymlinkAt fs (wantOf p num6)) =
        (existsAt fs' (wantOf p num6) && isFileAt fs' (wantOf p num6) &&
          !isSymlinkAt fs' (wantOf p num6)) from by
      rw [plainFile_eq_decide, plainFile_eq_decide]
      exact decide_eq_decide.mpr (kindShape_file_iff _ _ (hs (wantOf p num6)))]

/-! ### Characterization of `fix_symlinks` as a function of its input tree -/

/-- The relative target `p` is (or would be) retargeted to, if any. -/
def retRelOf (fs : FS) (p : Path) : Option String :=
  match classifyLink fs p with
  | LinkAction.retarget rel => some rel
  | _ => none

/-- The retarget record `p` contributes, if any. -/
def retargetOut (fs : FS) (p : Path) : Option (Path × String) :=
  (retRelOf fs p).map (fun rel => (p, rel))

/-- The broken-link record `p` contributes, if any. -/
def brokenOut (fs : FS) (p : Path) : Option (Path × Option String × Path) :=
  match classifyLink fs p with
  | LinkAction.broken cur want => some (p, cur, want)
  | _ => none

/-- Whether `p` is recorded as already correct. -/
def correctB (fs : FS) (p : Path) : Bool :=
  decide (classifyLink fs p = LinkAction.correct)

theorem classify_retarget_link (fs : FS) (p : Path) (rel : String)
    (h : classifyLink fs p = LinkAction.retarget rel) :
    ∃ t, lookupFS fs p = some (FKind.link t) := by
  unfold classifyLink at h
  by_cases hsym : isSymlinkAt fs p = true
  · unfold isSymlinkAt at hsym
    cases hl : lookupFS fs p with
    | none => rw [hl] at hsym; cases hsym
    | some k =>
      cases k with
      | link t => exact ⟨t, rfl⟩
      | file => rw [hl] at hsym; cases hsym
      | other => rw [hl] at hsym; cases hsym
  · have hb : (!isSymlinkAt fs p) = true := by
      cases hbb : isSymlinkAt fs p
      · rfl
      · exact absurd hbb hsym
    rw [if_pos hb] at h
    cases h

theorem linkStep_fs_of_dry (st : LinkState) (p : Path) : (linkStep true st p).fs = st.fs := by
  unfold linkStep
  cases classifyLink st.fs p <;> simp

theorem foldl_linkStep_fs_of_dry :
    ∀ (w : List Path) (st : LinkState), (w.foldl (linkStep true) st).fs = st.fs := by
  intro w
  induction w with
  | nil => intro st; rfl
  | cons p w ih =>
    intro st
    rw [List.foldl_cons, ih, linkStep_fs_of_dry]

theorem linkFold_spec (dry : Bool) (fs0 : FS) :
    ∀ (w : List Path) (st : LinkState),
      w.Nodup →
      (∀ p ∈ w, lookupFS st.fs p = lookupFS fs0 p) →
      (∀ q, kindShape (lookupFS st.fs q) = kindShape (lookupFS fs0 q)) →
      ((w.foldl (linkStep dry) st).fixed =
          st.fixed ++ w.filter (correctB fs0)) ∧
      ((w.foldl (linkStep dry) st).retargeted =
          st.retargeted ++ w.filterMap (retargetOut fs0)) ∧
      ((w.foldl (linkStep dry) st).broken =
          st.broken ++ w.filterMap (brokenOut fs0)) ∧
      (∀ q, (q ∉ w ∨ retRelOf fs0 q = none ∨ dry = true) →
          lookupFS (w.foldl (linkStep dry) st).fs q = lookupFS st.fs q) ∧
      (∀ q rel, dry = false → q ∈ w → retRelOf fs0 q = some rel →
          lookupFS (w.foldl (linkStep dry) st).fs q = some (FKind.link rel)) := by
  intro w
  induction w with
  | nil =>
    intro st _ _ _
    exact ⟨by simp, by simp, by simp, fun q _ => rfl,
      fun q rel _ hq _ => absurd hq (List.not_mem_nil q)⟩
  | cons p w ih =>
    intro st hnd hlk hsh
    have hnd' : w.Nodup := (List.nodup_cons.mp hnd).2
    have hpnotw : p ∉ w := (List.nodup_cons.mp hnd).1
    have hclass : classifyLink st.fs p = classifyLink fs0 p :=
      classifyLink_congr st.fs fs0 p hsh (hlk p (List.mem_cons_self p w))
    rw [List.foldl_cons]
    cases hcl : classifyLink fs0 p with
    | skip =>
      have hstep : linkStep dry st p = st := by
        unfold linkStep
        rw [hclass, hcl]
      rw [hstep]
      obtain ⟨h1, h2, h3, h4, h5⟩ :=
        ih st hnd' (fun q hq => hlk q (List.mem_cons_of_mem p hq)) hsh
      refine ⟨?_, ?_, ?_, ?_, ?_⟩
      · rw [h1, List.filter_cons, show correctB fs0 p = false from by simp [correctB, hcl]]
        simp
      · rw [h2, List.filterMap_cons,
          show retargetOut fs0 p = none from by simp [retargetOut, retRelOf, hcl]]
      · rw [h3, List.filterMap_cons,
          show brokenOut fs0 p = none from by simp [brokenOut, hcl]]
      · intro q hq
        apply h4 q
        rcases hq with hq | hq | hq
        · exact Or.inl (fun hm => hq (List.mem_cons_of_mem p hm))
        · exact Or.inr (Or.inl hq)
        · exact Or.inr (Or.inr hq)
      · intro q rel hdry hq hr
        rcases List.mem_cons.mp hq with rfl | hq'
        · unfold retRelOf at hr
          rw [hcl] at hr
          cases hr
        · exact h5 q rel hdry hq' hr
    | correct =>
      have hstep : linkStep dry st p = { st with fixed := st.fixed ++ [p] } := by
        unfold linkStep
        rw [hclass, hcl]
      rw [hstep]
      obtain ⟨h1, h2, h3, h4, h5⟩ :=
        ih { st with fixed := st.fixed ++ [p] } hnd'
          (fun q hq => hlk q (List.mem_cons_of_mem p hq)) hsh
      refine ⟨?_, ?_, ?_, ?_, ?_⟩
      · rw [h1, List.filter_cons, show correctB fs0 p = true from by simp [correctB, hcl]]
        simp
      · rw [h2, List.filterMap_cons,
          show retargetOut fs0 p = none from by simp [retargetOut, retRelOf, hcl]]
      · rw [h3, List.filterMap_cons,
          show brokenOut fs0 p = none from by simp [brokenOut, hcl]]
      · intro q hq
        apply h4 q
        rcases hq with hq | hq | hq
        · exact Or.inl (fun hm => hq (List.mem_cons_of_mem p hm))
        · exact Or.inr (Or.inl hq)
        · exact Or.inr (Or.inr hq)
      · intro q rel hdry hq hr
        rcases List.mem_cons.mp hq with rfl | hq'
        · unfold retRelOf at hr
          rw [hcl] at hr
          cases hr
        · exact h5 q rel hdry hq' hr
    | broken cur want =>
      have hstep : linkStep dry st p = { st with broken := st.broken ++ [(p, cur, want)] } := by
        unfold linkStep
        rw [hclass, hcl]
      rw [hstep]
      obtain ⟨h1, h2, h3, h4, h5⟩ :=
        ih { st with broken := st.broken ++ [(p, cur, want)] } hnd'
          (fun q hq => hlk q (List.mem_cons_of_mem p hq)) hsh
      refine ⟨?_, ?_, ?_, ?_, ?_⟩
      · rw [h1, List.filter_cons, show correctB fs0 p = false from by simp [correctB, hcl]]
        simp
      · rw [h2, List.filterMap_cons,
          show retargetOut fs0 p = none from by simp [retargetOut, retRelOf, hcl]]
      · rw [h3, List.filterMap_cons,
          show brokenOut fs0 p = some (p, cur, want) from by simp [brokenOut, hcl]]
        simp
      · intro q hq
        apply h4 q
        rcases hq with hq | hq | hq
        · exact Or.inl (fun hm => hq (List.mem_cons_of_mem p hm))
        · exact Or.inr (Or.inl hq)
        · exact Or.inr (Or.inr hq)
      · intro q rel hdry hq hr
        rcases List.mem_cons.mp hq with rfl | hq'
        · unfold retRelOf at hr
          rw [hcl] at hr
          cases hr
        · exact h5 q rel hdry hq' hr
    | retarget rel =>
      obtain ⟨t, hlt⟩ := classify_retarget_link fs0 p rel hcl
      have hlt' : lookupFS st.fs p = some (FKind.link t) := by
        rw [hlk p (List.mem_cons_self p w), hlt]
      cases dry with
      | true =>
        have hstep : linkStep true st p =
            (⟨st.fixed, st.retargeted ++ [(p, rel)], st.broken, st.fs⟩ : LinkState) := by
          unfold linkStep
          rw [hclass, hcl]
          rfl
        rw [hstep]
        obtain ⟨h1, h2, h3, h4, h5⟩ :=
          ih (⟨st.fixed, st.retargeted ++ [(p, rel)], st.broken, st.fs⟩ : LinkState) hnd'
            (fun q hq => hlk q (List.mem_cons_of_mem p hq)) hsh
        refine ⟨?_, ?_, ?_, ?_, ?_⟩
        · rw [h1, List.filter_cons, show correctB fs0 p = false from by simp [correctB, hcl]]
          simp
        · rw [h2, List.filterMap_cons,
            show retargetOut fs0 p = some (p, rel) from by simp [retargetOut, retRelOf, hcl]]
          simp
        · rw [h3, List.filterMap_cons,
            show brokenOut fs0 p = none from by simp [brokenOut, hcl]]
        · intro q hq
          apply h4 q
          rcases hq with hq | hq | hq
          · exact Or.inl (fun hm => hq (List.mem_cons_of_mem p hm))
          · exact Or.inr (Or.inl hq)
          · exact Or.inr (Or.inr hq)
        · intro q rel' hdry _ _
          cases hdry
      | false =>
        have hstep : linkStep false st p =
            (⟨st.fixed, st.retargeted ++ [(p, rel)], st.broken,
              fsSetLink st.fs p rel⟩ : LinkState) := by
          unfold linkStep
          rw [hclass, hcl]
          rfl
        rw [hstep]
        have hlk' : ∀ q ∈ w,
            lookupFS (fsSetLink st.fs p rel) q = lookupFS fs0 q := by
          intro q hq
          rw [lookupFS_fsSetLink, if_neg (fun hh : q = p => hpnotw (hh ▸ hq))]
          exact hlk q (List.mem_cons_of_mem p hq)
        have hsh' : ∀ q,
            kindShape (lookupFS (fsSetLink st.fs p rel) q) = kindShape (lookupFS fs0 q) := by
          intro q
          rw [lookupFS_fsSetLink]
          by_cases hq : q = p
          · rw [if_pos hq, hq, hlt']
            rw [show lookupFS fs0 p = some (FKind.link t) from hlt]
            rfl
          · rw [if_neg hq]
            exact hsh q
        obtain ⟨h1, h2, h3, h4, h5⟩ :=
          ih (⟨st.fixed, st.retargeted ++ [(p, rel)], st.broken,
              fsSetLink st.fs p rel⟩ : LinkState) hnd' hlk' hsh'
        refine ⟨?_, ?_, ?_, ?_, ?_⟩
        · rw [h1, List.filter_cons, show correctB fs0 p = false from by simp [correctB, hcl]]
          simp
        · rw [h2, List.filterMap_cons,
            show retargetOut fs0 p = some (p, rel) from by simp [retargetOut, retRelOf, hcl]]
          simp
        · rw [h3, List.filterMap_cons,
            show brokenOut fs0 p = none from by simp [brokenOut, hcl]]
        · intro q hq
          have hqp : q ≠ p := by
            rcases hq with hq | hq | hq
            · exact fun hh => hq (hh ▸ List.mem_cons_self p w)
            · intro hh
              rw [hh] at hq
              unfold retRelOf at hq
              rw [hcl] at hq
              cases hq
            · cases hq
          have hq' : q ∉ w ∨ retRelOf fs0 q = none ∨ false = true := by
            rcases hq with hq | hq | hq
            · exact Or.inl (fun hm => hq (List.mem_cons_of_mem p hm))
            · exact Or.inr (Or.inl hq)
            · cases hq
          rw [h4 q hq']
          show lookupFS (fsSetLink st.fs p rel) q = lookupFS st.fs q
          rw [lookupFS_fsSetLink, if_neg hqp]
        · intro q rel' _ hq hr
          rcases List.mem_cons.mp hq with rfl | hq'
          · have hrel : rel' = rel := by
              unfold retRelOf at hr
              rw [hcl] at hr
              injection hr with hh
              exact hh.symm
            rw [hrel]
            rw [h4 q (Or.inl hpnotw)]
            dsimp only
            rw [lookupFS_fsSetLink, if_pos rfl, hlt']
            rfl
          · exact h5 q rel' rfl hq' hr

/-- `fix_symlinks` as a pure function of its input tree: each record list
is determined entrywise by `classifyLink` against the initial tree, and
the only mutations are the retargets (none in dry-run mode). -/
theorem fix_symlinks_spec (fs : FS) (dry : Bool) (h : keysNodup fs) :
    (fix_symlinks fs dry).fixed = (walkJpg fs).filter (correctB fs) ∧
    (fix_symlinks fs dry).retargeted = (walkJpg fs).filterMap (retargetOut fs) ∧
    (fix_symlinks fs dry).broken = (walkJpg fs).filterMap (brokenOut fs) ∧
    (∀ q, (q ∉ walkJpg fs ∨ retRelOf fs q = none ∨ dry = true) →
        lookupFS (fix_symlinks fs dry).fs q = lookupFS fs q) ∧
    (∀ q rel, dry = false → q ∈ walkJpg fs → retRelOf fs q = some rel →
        lookupFS (fix_symlinks fs dry).fs q = some (FKind.link rel)) := by
  have := linkFold_spec dry fs (walkJpg fs) ⟨[], [], [], fs⟩
    (walkJpg_nodup fs h) (fun p _ => rfl) (fun q => rfl)
  obtain ⟨h1, h2, h3, h4, h5⟩ := this
  exact ⟨by simpa using h1, by simpa using h2, by simpa using h3, h4, h5⟩

/-! ### Shape lemmas for the loop-body decisions -/

theorem readlinkPure_of_link (fs : FS) (p : Path) (t : String)
    (hp : lookupFS fs p = some (FKind.link t)) : readlinkPure fs p = some t := by
  unfold readlinkPure
  rw [hp]

/-- The `fix_symlinks` decision for a symlink entry with digits, spelled as
a function of the canonical sibling's kind and the raw target. -/
theorem classify_of_link (fs : FS) (p : Path) (t : String) (num6 : String)
    (hp : lookupFS fs p = some (FKind.link t))
    (hx : extract_num6 p.name = some num6) :
    classifyLink fs p =
      if lookupFS fs (wantOf p num6) = some FKind.file then
        (if some t ≠ some (relpathFrom p.dir (wantOf p num6)) then
          LinkAction.retarget (relpathFrom p.dir (wantOf p num6))
        else LinkAction.correct)
      else LinkAction.broken (some t) (wantOf p num6) := by
  unfold classifyLink
  rw [show isSymlinkAt fs p = true from isSymlinkAt_of_lookup fs p t hp]
  rw [if_neg (by simp)]
  rw [hx]
  dsimp only
  rw [readlinkPure_of_link fs p t hp]
  by_cases hw : lookupFS fs (wantOf p num6) = some FKind.file
  · rw [if_pos (show (existsAt fs (wantOf p num6) && isFileAt fs (wantOf p num6) &&
        !isSymlinkAt fs (wantOf p num6)) = true from by
          rw [plainFile_eq_decide]
          exact decide_eq_true hw),
      if_pos hw]
  · rw [if_neg (show ¬((existsAt fs (wantOf p num6) && isFileAt fs (wantOf p num6) &&
        !isSymlinkAt fs (wantOf p num6)) = true) from by
          rw [plainFile_eq_decide]
          simp [hw]),
      if_neg hw]

theorem classify_not_skip (fs : FS) (p : Path) (h : classifyLink fs p ≠ LinkAction.skip) :
    ∃ t num6, lookupFS fs p = some (FKind.link t) ∧ extract_num6 p.name = some num6 := by
  unfold classifyLink at h
  by_cases hsym : isSymlinkAt fs p = true
  · have hl : ∃ t, lookupFS fs p = some (FKind.link t) := by
      unfold isSymlinkAt at hsym
      cases hl : lookupFS fs p with
      | none => rw [hl] at hsym; cases hsym
      | some k =>
        cases k with
        | link t => exact ⟨t, rfl⟩
        | file => rw [hl] at hsym; cases hsym
        | other => rw [hl] at hsym; cases hsym
    obtain ⟨t, hl⟩ := hl
    cases hx : extract_num6 p.name with
    | none =>
      rw [hsym] at h
      rw [hx] at h
      simp at h
    | some num6 => exact ⟨t, num6, hl, rfl⟩
  · have hb : (!isSymlinkAt fs p) = true := by
      cases hbb : isSymlinkAt fs p
      · rfl
      · exact absurd hbb hsym
    rw [if_pos hb] at h
    exact absurd rfl h

theorem classify_broken_shape (fs : FS) (p : Path) (cur : Option String) (want : Path)
    (h : classifyLink fs p = LinkAction.broken cur want) :
    ∃ t num6, lookupFS fs p = some (FKind.link t) ∧ extract_num6 p.name = some num6 ∧
      cur = some t ∧ want = wantOf p num6 ∧
      ¬(lookupFS fs (wantOf p num6) = some FKind.file) := by
  obtain ⟨t, num6, hl, hx⟩ := classify_not_skip fs p (by rw [h]; intro hc; cases hc)
  rw [classify_of_link fs p t num6 hl hx] at h
  by_cases hw : lookupFS fs (wantOf p num6) = some FKind.file
  · rw [if_pos hw] at h
    by_cases ht : some t ≠ some (relpathFrom p.dir (wantOf p num6))
    · rw [if_pos ht] at h; cases h
    · rw [if_neg ht] at h; cases h
  · rw [if_neg hw] at h
    injection h with h1 h2
    exact ⟨t, num6, hl, hx, h1.symm, h2.symm, hw⟩

theorem classify_correct_shape (fs : FS) (p : Path)
    (h : classifyLink fs p = LinkAction.correct) :
    ∃ t num6, lookupFS fs p = some (FKind.link t) ∧ extract_num6 p.name = some num6 ∧
      lookupFS fs (wantOf p num6) = some FKind.file ∧
      t = relpathFrom p.dir (wantOf p num6) := by
  obtain ⟨t, num6, hl, hx⟩ := classify_not_skip fs p (by rw [h]; intro hc; cases hc)
  rw [classify_of_link fs p t num6 hl hx] at h
  by_cases hw : lookupFS fs (wantOf p num6) = some FKind.file
  · rw [if_pos hw] at h
    by_cases ht : some t ≠ some (relpathFrom p.dir (wantOf p num6))
    · rw [if_pos ht] at h; cases h
    · have := not_not.mp ht
      injection this with hh
      exact ⟨t, num6, hl, hx, hw, hh⟩
  · rw [if_neg hw] at h; cases h

theorem classify_retarget_shape (fs : FS) (p : Path) (rel : String)
    (h : classifyLink fs p = LinkAction.retarget rel) :
    ∃ t num6, lookupFS fs p = some (FKind.link t) ∧ extract_num6 p.name = some num6 ∧
      lookupFS fs (wantOf p num6) = some FKind.file ∧
      rel = relpathFrom p.dir (wantOf p num6) ∧ t ≠ rel := by
  obtain ⟨t, num6, hl, hx⟩ := classify_not_skip fs p (by rw [h]; intro hc; cases hc)
  rw [classify_of_link fs p t num6 hl hx] at h
  by_cases hw : lookupFS fs (wantOf p num6) = some FKind.file
  · rw [if_pos hw] at h
    by_cases ht : some t ≠ some (relpathFrom p.dir (wantOf p num6))
    · rw [if_pos ht] at h
      injection h with h1
      refine ⟨t, num6, hl, hx, hw, h1.symm, ?_⟩
      intro hc
      exact ht (by rw [hc, h1])
    · rw [if_neg ht] at h; cases h
  · rw [if_neg hw] at h; cases h

theorem classify_skip_of_not_link (fs : FS) (p : Path)
    (h : ∀ t, lookupFS fs p ≠ some (FKind.link t)) :
    classifyLink fs p = LinkAction.skip := by
  unfold classifyLink
  have hs : isSymlinkAt fs p = false := by
    unfold isSymlinkAt
    cases hl : lookupFS fs p with
    | none => rfl
    | some k =>
      cases k with
      | link t => exact absurd hl (h t)
      | file => rfl
      | other => rfl
  rw [hs]
  rw [if_pos (show (!false) = true from rfl)]

theorem retRelOf_of_not_link (fs : FS) (p : Path)
    (h : ∀ t, lookupFS fs p ≠ some (FKind.link t)) : retRelOf fs p = none := by
  unfold retRelOf
  rw [classify_skip_of_not_link fs p h]

/-- The relative path from a directory to a sibling entry is its basename. -/
theorem relpathFrom_sibling (p : Path) (num6 : String) :
    relpathFrom p.dir (wantOf p num6) = num6 ++ pyLower (pySuffix p.name) := by
  unfold relpathFrom wantOf
  rw [if_pos rfl]

/-! ### Frame lemma for the apply loop -/

theorem lookupFS_applyRenames_frame :
    ∀ (chs : List (Path × Path)) (fs : FS) (q : Path),
      (∀ c ∈ chs, q ≠ c.1 ∧ q ≠ c.2) →
      lookupFS (applyRenames fs chs) q = lookupFS fs q := by
  intro chs
  induction chs with
  | nil => intro fs q _; rfl
  | cons c rest ih =>
    intro fs q hc
    obtain ⟨o, n⟩ := c
    show lookupFS (applyRenames (fsRename fs o n) rest) q = _
    rw [ih (fsRename fs o n) q (fun c hm => hc c (List.mem_cons_of_mem _ hm))]
    exact lookupFS_fsRename_other fs o n q
      (hc (o, n) (List.mem_cons_self _ _)).1 (hc (o, n) (List.mem_cons_self _ _)).2

theorem extract_num6_some_fmt (name : String) (s : String)
    (h : extract_num6 name = some s) :
    s = fmt06 (natOfDigits (name.data.filter Char.isDigit)) := by
  rw [extract_eq_canon] at h
  unfold canonSpec at h
  by_cases hf : name.data.filter Char.isDigit = []
  · rw [if_pos hf] at h; cases h
  · rw [if_neg hf] at h
    injection h with hh
    exact hh.symm

/-! ### Concrete trees used to instantiate the theorems -/

/-- A real file plus a dangling symlink sitting on the file's canonical
name. -/
def fsDangling : FS :=
  [(⟨"/r", "a1.jpg"⟩, FKind.file), (⟨"/r", "000001.jpg"⟩, FKind.link "gone.jpg")]

/-- A real file to be renamed plus a stale symlink that canonicalizes to
the file's new name. -/
def fsStale : FS :=
  [(⟨"/r", "a63.jpg"⟩, FKind.file), (⟨"/r", "63x.jpg"⟩, FKind.link "zz")]

/-- Two real files, both needing a rename. -/
def fsTwoFiles : FS :=
  [(⟨"/r", "a1.jpg"⟩, FKind.file), (⟨"/r", "b2.jpg"⟩, FKind.file)]

/-- A correct symlink next to its canonical file. -/
def fsCorrect : FS :=
  [(⟨"/r", "000063.jpg"⟩, FKind.file), (⟨"/r", "63x.jpg"⟩, FKind.link "000063.jpg")]

/-- A real file whose canonical name is already taken by another real
file. -/
def fsConflict : FS :=
  [(⟨"/r", "a1.jpg"⟩, FKind.file), (⟨"/r", "000001.jpg"⟩, FKind.file)]

/-! ### The claims -/

/-- C1: for every filename, `extract_num6` returns exactly the
specification's canonical name: the concatenation of the maximal digit
runs (equivalently, the digit characters in order), parsed as an unsigned
integer and formatted zero-padded to width 6; `None` when the name has no
digits; and an integer above 999999 prints as its full decimal
representation, wider than 6 characters, with no truncation. -/
theorem C1_extract_num6_correct (name : String) :
    extract_num6 name = canonSpec name ∧
    (name.data.filter Char.isDigit = [] → extract_num6 name = none) ∧
    (∀ n, 999999 < n → natOfDigits (name.data.filter Char.isDigit) = n →
      name.data.filter Char.isDigit ≠ [] →
      extract_num6 name = some (String.mk (decDigits n)) ∧
        6 < (String.mk (decDigits n)).data.length) := by
  refine ⟨extract_eq_canon name, extract_num6_of_no_digits name, ?_⟩
  intro n hn hv hne
  have h1 : extract_num6 name = some (fmt06 n) := by
    rw [extract_num6_of_digits name hne, hv]
  rw [fmt06_eq_decDigits_of_long n hn] at h1
  refine ⟨h1, ?_⟩
  show 6 < (decDigits n).length
  have hle : ¬((decDigits n).length ≤ 6) := by
    intro hle
    have := (decDigits_length_le_iff n 6 (by omega)).mp hle
    omega
  omega

theorem C1_extract_num6_correct_witness :
    extract_num6 "img_1234567.jpg" = some "1234567" := by
  have h := (C1_extract_num6_correct "img_1234567.jpg").2.2 1234567
    (by decide) (by decide) (by decide)
  exact h.1.trans (by decide)

/-- C9: the `ValueError` handler around `int(s)` is unreachable: whenever
the digit-run search is nonempty, the joined string is a nonempty digit
string, `int` succeeds with its value, and `extract_num6` returns through
the formatting branch, never `None` through the handler. -/
theorem C9_int_never_fails (name : String) (h : digitRuns name.data ≠ []) :
    pyInt (String.mk (digitRuns name.data).flatten) =
      some (natOfDigits (name.data.filter Char.isDigit)) ∧
    extract_num6 name = some (fmt06 (natOfDigits (name.data.filter Char.isDigit))) := by
  have hf : name.data.filter Char.isDigit ≠ [] := fun hc => h ((digitRuns_eq_nil _).mpr hc)
  constructor
  · unfold pyInt
    have hjoin := digitRuns_join_eq name.data
    have hne : (String.mk (digitRuns name.data).flatten).data ≠ [] := by
      show (digitRuns name.data).flatten ≠ []
      rw [hjoin]
      exact hf
    have hall : (String.mk (digitRuns name.data).flatten).data.all Char.isDigit = true := by
      show ((digitRuns name.data).flatten).all Char.isDigit = true
      rw [hjoin, List.all_eq_true]
      intro c hc
      exact (List.mem_filter.mp hc).2
    rw [if_pos ⟨hne, hall⟩]
    show some (natOfDigits (digitRuns name.data).flatten) = _
    rw [hjoin]
  · exact extract_num6_of_digits name hf

theorem C9_int_never_fails_witness :
    digitRuns ("v0_63.jpg" : String).data ≠ [] ∧
      extract_num6 "v0_63.jpg" = some "000063" := by
  refine ⟨by decide, ?_⟩
  exact ((C9_int_never_fails "v0_63.jpg" (by decide)).2).trans (by decide)

/-- C8: every canonical name `extract_num6` can return is a nonempty
all-digit string of length at least 6, longer than 6 only when its value
exceeds 999999; and every canonical basename either pass manipulates — the
rename targets and conflict targets of pass 1, and the expected canonical
names and retarget strings of pass 2 — is such a string followed by the
lowercased `.jpg` suffix. -/
theorem C8_canonical_invariant :
    (∀ name s, extract_num6 name = some s →
      s.data ≠ [] ∧ s.data.all Char.isDigit = true ∧ 6 ≤ s.data.length ∧
        (6 < s.data.length → 999999 < natOfDigits s.data)) ∧
    (∀ fs p q, ((p, q) ∈ (scanReal fs).1 ∨ (p, q) ∈ (scanReal fs).2) →
      ∃ s, extract_num6 p.name = some s ∧ q.name = s ++ pyLower (pySuffix p.name)) ∧
    (∀ fs dry p cur want, keysNodup fs →
      (p, cur, want) ∈ (fix_symlinks fs dry).broken →
      ∃ s, extract_num6 p.name = some s ∧ want.name = s ++ pyLower (pySuffix p.name)) ∧
    (∀ fs dry p rel, keysNodup fs →
      (p, rel) ∈ (fix_symlinks fs dry).retargeted →
      ∃ s, extract_num6 p.name = some s ∧ rel = s ++ pyLower (pySuffix p.name)) := by
  refine ⟨?_, ?_, ?_, ?_⟩
  · intro name s h
    have hs := extract_num6_some_fmt name s h
    subst hs
    refine ⟨fmt06_ne_nil _, fmt06_all_digit _, fmt06_length_ge _, ?_⟩
    intro hlong
    have := fmt06_long_iff _ hlong
    rwa [natOfDigits_fmt06]
  · intro fs p q hm
    rw [scanReal_eq] at hm
    rcases hm with hm | hm
    · rcases List.mem_filterMap.mp hm with ⟨x, _, hout⟩
      obtain ⟨hfst, _, ⟨num6, hx6, hsnd⟩, _, _⟩ := renameOut_some fs x (p, q) hout
      have hxp : x = p := hfst.symm
      subst hxp
      have hq : q = (⟨x.dir, num6 ++ pyLower (pySuffix x.name)⟩ : Path) := hsnd
      exact ⟨num6, hx6, by rw [hq]⟩
    · rcases List.mem_filterMap.mp hm with ⟨x, _, hout⟩
      obtain ⟨hfst, _, ⟨num6, hx6, hsnd⟩, _, _⟩ := conflictOut_some fs x (p, q) hout
      have hxp : x = p := hfst.symm
      subst hxp
      have hq : q = (⟨x.dir, num6 ++ pyLower (pySuffix x.name)⟩ : Path) := hsnd
      exact ⟨num6, hx6, by rw [hq]⟩
  · intro fs dry p cur want hnd hm
    rw [(fix_symlinks_spec fs dry hnd).2.2.1] at hm
    rcases List.mem_filterMap.mp hm with ⟨x, _, hout⟩
    unfold brokenOut at hout
    cases hcl : classifyLink fs x with
    | skip => rw [hcl] at hout; cases hout
    | correct => rw [hcl] at hout; cases hout
    | retarget rel => rw [hcl] at hout; cases hout
    | broken cur' want' =>
      rw [hcl] at hout
      injection hout with hh
      obtain ⟨t, num6, _, hx6, _, hwant, _⟩ := classify_broken_shape fs x cur' want' hcl
      have hxp : x = p := congrArg Prod.fst hh
      have hww : want' = want := congrArg (fun y => y.2.2) hh
      subst hxp
      refine ⟨num6, hx6, ?_⟩
      rw [← hww, hwant]
      rfl
  · intro fs dry p rel hnd hm
    rw [(fix_symlinks_spec fs dry hnd).2.1] at hm
    rcases List.mem_filterMap.mp hm with ⟨x, _, hout⟩
    unfold retargetOut retRelOf at hout
    cases hcl : classifyLink fs x with
    | skip => rw [hcl] at hout; cases hout
    | correct => rw [hcl] at hout; cases hout
    | broken cur' want' => rw [hcl] at hout; cases hout
    | retarget rel' =>
      rw [hcl] at hout
      injection hout with hh
      obtain ⟨t, num6, _, hx6, _, hrel, _⟩ := classify_retarget_shape fs x rel' hcl
      have hxp : x = p := congrArg Prod.fst hh
      have hrr : rel' = rel := congrArg Prod.snd hh
      subst hxp
      refine ⟨num6, hx6, ?_⟩
      rw [← hrr, hrel, relpathFrom_sibling]

theorem C8_canonical_invariant_witness :
    ("000063" : String).data.all Char.isDigit = true ∧
      6 ≤ ("000063" : String).data.length := by
  have h := C8_canonical_invariant.1 "v0_63.jpg" "000063" (by decide)
  exact ⟨h.2.1, h.2.2.1⟩

/-- C7: the summary reports exactly the five counts as the lengths of the
corresponding record lists, followed by the first at most 20 broken-link
records (link path, current target, expected canonical path); broken
links beyond the first 20 are omitted from the examples. -/
theorem C7_summary_counts (fs : FS) (applyFlag : Bool) :
    (runTool fs applyFlag).summary.renames = (runTool fs applyFlag).changes.length ∧
    (runTool fs applyFlag).summary.conflicts = (runTool fs applyFlag).conflicts.length ∧
    (runTool fs applyFlag).summary.alreadyCorrect = (runTool fs applyFlag).fixed.length ∧
    (runTool fs applyFlag).summary.retargets = (runTool fs applyFlag).retargeted.length ∧
    (runTool fs applyFlag).summary.brokenCount = (runTool fs applyFlag).broken.length ∧
    (runTool fs applyFlag).summary.examples = (runTool fs applyFlag).broken.take 20 ∧
    (runTool fs applyFlag).summary.examples.length ≤ 20 ∧
    ((runTool fs applyFlag).broken.length ≤ 20 →
      (runTool fs applyFlag).summary.examples = (runTool fs applyFlag).broken) ∧
    (∀ x ∈ (runTool fs applyFlag).summary.examples, x ∈ (runTool fs applyFlag).broken) := by
  refine ⟨rfl, rfl, rfl, rfl, rfl, rfl, ?_, ?_, ?_⟩
  · show (((fix_symlinks (normalize_real_files fs (!applyFlag)).2 (!applyFlag)).broken).take 20).length ≤ 20
    rw [List.length_take]
    omega
  · intro hle
    show ((runTool fs applyFlag).broken).take 20 = (runTool fs applyFlag).broken
    exact List.take_of_length_le hle
  · intro x hx
    exact (List.take_sublist 20 _).subset hx

theorem C7_summary_counts_witness :
    (runTool fsStale true).summary.examples = (runTool fsStale true).broken := by
  have h := C7_summary_counts fsStale true
  exact h.2.2.2.2.2.2.2.1 (by decide)

theorem mem_retargeted_retRelOf (fs : FS) (w : List Path) (p : Path) (r : String)
    (hm : (p, r) ∈ w.filterMap (retargetOut fs)) : retRelOf fs p = some r := by
  rcases List.mem_filterMap.mp hm with ⟨x, _, hout⟩
  unfold retargetOut at hout
  cases hr : retRelOf fs x with
  | none => rw [hr] at hout; cases hout
  | some rel =>
    rw [hr] at hout
    injection hout with hh
    have hx : x = p := congrArg Prod.fst hh
    have hrel : rel = r := congrArg Prod.snd hh
    rw [← hx, hr, hrel]

theorem mem_walkJpg_of_lookup (fs : FS) (p : Path) (k : FKind)
    (h : lookupFS fs p = some k) (hj : jpgName p.name = true) : p ∈ walkJpg fs :=
  (mem_walkJpg fs p).mpr ⟨⟨k, mem_of_lookupFS fs p k h⟩, hj⟩

/-- A `.jpg` name with digits has pathlib suffix exactly `".jpg"`. -/
theorem pySuffix_of_jpg_digits (name : String) (hj : jpgName name = true)
    (hd : name.data.filter Char.isDigit ≠ []) : pySuffix name = ".jpg" := by
  have hsuf : ['.', 'j', 'p', 'g'] <:+ name.data :=
    List.isSuffixOf_iff_suffix.mp hj
  obtain ⟨pre, hpre⟩ := hsuf
  have hprene : pre ≠ [] := by
    intro hnil
    rw [hnil, List.nil_append] at hpre
    rw [← hpre] at hd
    exact hd rfl
  exact pySuffix_jpg name pre hpre.symm hprene

/-- Digit extraction fails on names whose digit-character list is empty and
succeeds otherwise, so a successful extraction means a digit exists. -/
theorem digits_ne_nil_of_extract (name : String) (num6 : String)
    (h : extract_num6 name = some num6) : name.data.filter Char.isDigit ≠ [] := by
  intro hnil
  rw [extract_num6_of_no_digits name hnil] at h
  cases h

theorem jpgName_append_jpg (s : String) : jpgName (s ++ ".jpg") = true := by
  unfold jpgName
  rw [strData_append]
  exact List.isSuffixOf_iff_suffix.mpr ⟨s.data, rfl⟩

/-- The canonical basename built by either pass from a `.jpg` entry with
digits: the extracted string followed by `".jpg"`, itself a `.jpg` name. -/
theorem canonical_target_name (p : Path) (num6 : String)
    (hj : jpgName p.name = true) (hx : extract_num6 p.name = some num6) :
    (wantOf p num6).name = num6 ++ ".jpg" ∧ jpgName (wantOf p num6).name = true := by
  have hsuf : pySuffix p.name = ".jpg" :=
    pySuffix_of_jpg_digits p.name hj (digits_ne_nil_of_extract p.name num6 hx)
  have hname : (wantOf p num6).name = num6 ++ ".jpg" := by
    show num6 ++ pyLower (pySuffix p.name) = num6 ++ ".jpg"
    rw [hsuf, pyLower_jpg]
  exact ⟨hname, by rw [hname]; exact jpgName_append_jpg num6⟩

/-- C2: for every `.jpg` symlink whose name contains digits, `fix_symlinks`
retargets it — removing and recreating it with the relative path from the
link's directory as target — exactly when the canonical path in the same
directory holds a plain regular file and the raw target differs from that
relative path; when the raw target already equals it, the link is recorded
as already correct with no mutation; when the canonical path is missing or
not a plain regular file, the link is recorded as broken with no
mutation. -/
theorem C2_fix_symlinks_cases (fs : FS) (dry : Bool) (p : Path) (t num6 : String)
    (hnodup : keysNodup fs)
    (hp : lookupFS fs p = some (FKind.link t))
    (hjpg : jpgName p.name = true)
    (hnum : extract_num6 p.name = some num6) :
    ((lookupFS fs (wantOf p num6) = some FKind.file ∧
        t ≠ relpathFrom p.dir (wantOf p num6)) →
      ((p, relpathFrom p.dir (wantOf p num6)) ∈ (fix_symlinks fs dry).retargeted ∧
        p ∉ (fix_symlinks fs dry).fixed ∧
        (dry = false → lookupFS (fix_symlinks fs dry).fs p =
          some (FKind.link (relpathFrom p.dir (wantOf p num6)))) ∧
        (dry = true → lookupFS (fix_symlinks fs dry).fs p = some (FKind.link t)))) ∧
    ((lookupFS fs (wantOf p num6) = some FKind.file ∧
        t = relpathFrom p.dir (wantOf p num6)) →
      (p ∈ (fix_symlinks fs dry).fixed ∧
        (∀ r, (p, r) ∉ (fix_symlinks fs dry).retargeted) ∧
        lookupFS (fix_symlinks fs dry).fs p = some (FKind.link t))) ∧
    (¬(lookupFS fs (wantOf p num6) = some FKind.file) →
      ((p, some t, wantOf p num6) ∈ (fix_symlinks fs dry).broken ∧
        (∀ r, (p, r) ∉ (fix_symlinks fs dry).retargeted) ∧
        lookupFS (fix_symlinks fs dry).fs p = some (FKind.link t))) := by
  obtain ⟨hfix, hret, hbrk, hfr1, hfr2⟩ := fix_symlinks_spec fs dry hnodup
  have hwalk : p ∈ walkJpg fs := mem_walkJpg_of_lookup fs p _ hp hjpg
  have hcl := classify_of_link fs p t num6 hp hnum
  refine ⟨?_, ?_, ?_⟩
  · rintro ⟨hw, ht⟩
    have hcl' : classifyLink fs p = LinkAction.retarget (relpathFrom p.dir (wantOf p num6)) := by
      rw [hcl, if_pos hw, if_pos (fun hc => ht (Option.some.inj hc))]
    have hrr : retRelOf fs p = some (relpathFrom p.dir (wantOf p num6)) := by
      unfold retRelOf
      rw [hcl']
    refine ⟨?_, ?_, ?_, ?_⟩
    · rw [hret]
      refine List.mem_filterMap.mpr ⟨p, hwalk, ?_⟩
      unfold retargetOut
      rw [hrr]
      rfl
    · intro hc
      rw [hfix] at hc
      have := List.of_mem_filter hc
      rw [show correctB fs p = false from by
        unfold correctB
        rw [hcl']
        rfl] at this
      cases this
    · intro hdry
      exact hfr2 p _ hdry hwalk hrr
    · intro hdry
      rw [hfr1 p (Or.inr (Or.inr hdry))]
      exact hp
  · rintro ⟨hw, ht⟩
    have hcl' : classifyLink fs p = LinkAction.correct := by
      rw [hcl, if_pos hw, if_neg (not_not.mpr (congrArg some ht))]
    refine ⟨?_, ?_, ?_⟩
    · rw [hfix]
      refine List.mem_filter.mpr ⟨hwalk, ?_⟩
      unfold correctB
      rw [hcl']
      rfl
    · intro r hc
      rw [hret] at hc
      have := mem_retargeted_retRelOf fs _ p r hc
      unfold retRelOf at this
      rw [hcl'] at this
      cases this
    · rw [hfr1 p (Or.inr (Or.inl (by unfold retRelOf; rw [hcl'])))]
      exact hp
  · intro hw
    have hcl' : classifyLink fs p = LinkAction.broken (some t) (wantOf p num6) := by
      rw [hcl, if_neg hw]
    refine ⟨?_, ?_, ?_⟩
    · rw [hbrk]
      refine List.mem_filterMap.mpr ⟨p, hwalk, ?_⟩
      unfold brokenOut
      rw [hcl']
    · intro r hc
      rw [hret] at hc
      have := mem_retargeted_retRelOf fs _ p r hc
      unfold retRelOf at this
      rw [hcl'] at this
      cases this
    · rw [hfr1 p (Or.inr (Or.inl (by unfold retRelOf; rw [hcl'])))]
      exact hp

theorem C2_fix_symlinks_cases_witness :
    (⟨"/r", "63x.jpg"⟩ : Path) ∈ (fix_symlinks fsCorrect false).fixed := by
  have h := (C2_fix_symlinks_cases fsCorrect false ⟨"/r", "63x.jpg"⟩ "000063.jpg" "000063"
    (by decide) (by decide) (by decide) (by decide)).2.1 ⟨by decide, by decide⟩
  exact h.1

theorem changes_facts (fs : FS) :
    ∀ c ∈ (scanReal fs).1,
      lookupFS fs c.1 = some FKind.file ∧ existsAt fs c.2 = false ∧
      c.1 ∈ walkJpg fs ∧ jpgName c.2.name = true ∧
      ∃ num6, extract_num6 c.1.name = some num6 ∧ c.2 = wantOf c.1 num6 ∧
        c.1.name ≠ c.2.name := by
  intro c hm
  rw [scanReal_eq] at hm
  rcases List.mem_filterMap.mp hm with ⟨x, hxw, hout⟩
  obtain ⟨hfst, hk, ⟨num6, hx6, hsnd⟩, hnm, hex⟩ := renameOut_some fs x c hout
  have hx : x = c.1 := hfst.symm
  subst hx
  have hcw : c.2 = wantOf c.1 num6 := hsnd
  have hjpg1 : jpgName c.1.name = true := ((mem_walkJpg fs c.1).mp hxw).2
  refine ⟨hk, hex, hxw, ?_, num6, hx6, hcw, hnm⟩
  rw [hcw]
  exact (canonical_target_name c.1 num6 hjpg1 hx6).2

/-- C3 counterexample: in `fsDangling` the intended target
`/r/000001.jpg` already exists as a filesystem entry (a dangling symlink),
yet the scan records no conflict, queues the rename, and applying it
replaces the pre-existing symlink entry with the renamed file. -/
theorem C3_counterexample :
    lookupFS fsDangling ⟨"/r", "000001.jpg"⟩ = some (FKind.link "gone.jpg") ∧
    (scanReal fsDangling).2 = [] ∧
    (scanReal fsDangling).1 = [(⟨"/r", "a1.jpg"⟩, ⟨"/r", "000001.jpg"⟩)] ∧
    lookupFS (normalize_real_files fsDangling false).2 ⟨"/r", "000001.jpg"⟩ =
      some FKind.file := by
  decide

/-- C3 (amended): a conflict is recorded and the rename suppressed exactly
when `Path.exists()` — which follows symlinks — is true at the intended
target: when it is true the entry is recorded as a conflict and never
queued, and when it is false the rename is queued and no conflict is
recorded for the entry; consequently every queued rename targets a path at
which `exists()` is false, so no rename overwrites an entry that exists in
that sense (a dangling symlink at the target is not counted as existing
and is overwritten). -/
theorem C3_amended_conflicts (fs : FS) :
    (∀ o n, (o, n) ∈ (scanReal fs).1 → existsAt fs n = false) ∧
    (∀ p ∈ walkJpg fs, lookupFS fs p = some FKind.file →
      ∀ num6, extract_num6 p.name = some num6 →
      p.name ≠ (wantOf p num6).name →
      existsAt fs (wantOf p num6) = true →
      ((p, wantOf p num6) ∈ (scanReal fs).2 ∧ (p, wantOf p num6) ∉ (scanReal fs).1)) ∧
    (∀ p ∈ walkJpg fs, lookupFS fs p = some FKind.file →
      ∀ num6, extract_num6 p.name = some num6 →
      p.name ≠ (wantOf p num6).name →
      existsAt fs (wantOf p num6) = false →
      ((p, wantOf p num6) ∈ (scanReal fs).1 ∧ ∀ c2, (p, c2) ∉ (scanReal fs).2)) := by
  refine ⟨?_, ?_, ?_⟩
  · intro o n hm
    exact (changes_facts fs (o, n) hm).2.1
  · intro p hw hk num6 hx hnm hex
    have hro : realOut fs p = some (Sum.inr (p, wantOf p num6)) := by
      unfold realOut
      rw [show isSymlinkAt fs p = false from isSymlinkAt_false_of_file fs p hk]
      rw [show isFileAt fs p = true from isFileAt_of_file fs p hk]
      rw [if_neg (by simp), if_neg (by simp), hx]
      dsimp only
      rw [if_neg (show ¬(p.name =
        (⟨p.dir, num6 ++ pyLower (pySuffix p.name)⟩ : Path).name) from hnm)]
      rw [if_pos (show existsAt fs
        (⟨p.dir, num6 ++ pyLower (pySuffix p.name)⟩ : Path) = true from hex)]
      rfl
    constructor
    · rw [scanReal_eq]
      refine List.mem_filterMap.mpr ⟨p, hw, ?_⟩
      unfold conflictOut
      rw [hro]
    · intro hc
      rw [scanReal_eq] at hc
      rcases List.mem_filterMap.mp hc with ⟨x, _, hout⟩
      have hxp : x = p := by
        obtain ⟨hfst, _, _, _, _⟩ := renameOut_some fs x _ hout
        exact hfst.symm
      subst hxp
      have hnone : renameOut fs x = none := by
        unfold renameOut
        rw [hro]
      rw [hnone] at hout
      cases hout
  · intro p hw hk num6 hx hnm hex
    have hro : realOut fs p = some (Sum.inl (p, wantOf p num6)) := by
      unfold realOut
      rw [show isSymlinkAt fs p = false from isSymlinkAt_false_of_file fs p hk]
      rw [show isFileAt fs p = true from isFileAt_of_file fs p hk]
      rw [if_neg (by simp), if_neg (by simp), hx]
      dsimp only
      rw [if_neg (show ¬(p.name =
        (⟨p.dir, num6 ++ pyLower (pySuffix p.name)⟩ : Path).name) from hnm)]
      rw [if_neg (show ¬(existsAt fs
          (⟨p.dir, num6 ++ pyLower (pySuffix p.name)⟩ : Path) = true) from by
        rw [show (⟨p.dir, num6 ++ pyLower (pySuffix p.name)⟩ : Path) =
          wantOf p num6 from rfl, hex]
        simp)]
      rfl
    have hrn : renameOut fs p = some (p, wantOf p num6) := by
      unfold renameOut
      rw [hro]
    constructor
    · rw [scanReal_eq]
      exact List.mem_filterMap.mpr ⟨p, hw, hrn⟩
    · intro c2 hc
      rw [scanReal_eq] at hc
      rcases List.mem_filterMap.mp hc with ⟨x, _, hout⟩
      have hxp : x = p := ((conflictOut_some fs x _ hout).1).symm
      subst hxp
      have hco : conflictOut fs x = none := by
        unfold conflictOut
        rw [hro]
      rw [hco] at hout
      cases hout

theorem C3_amended_conflicts_witness :
    ((⟨"/r", "a1.jpg"⟩ : Path), (⟨"/r", "000001.jpg"⟩ : Path)) ∈ (scanReal fsConflict).2 := by
  have h := (C3_amended_conflicts fsConflict).2.1 ⟨"/r", "a1.jpg"⟩
    (by decide) (by decide) "000001" (by decide) (by decide) (by decide)
  exact (by decide : wantOf ⟨"/r", "a1.jpg"⟩ "000001" = (⟨"/r", "000001.jpg"⟩ : Path)) ▸ h.1

/-- C10 counterexample: `normalize_real_files` removes a symlink — the
dangling link at `/r/000001.jpg` is clobbered by the rename of
`/r/a1.jpg`, so pass 1 does mutate a symlink entry. -/
theorem C10_counterexample :
    lookupFS fsDangling ⟨"/r", "000001.jpg"⟩ = some (FKind.link "gone.jpg") ∧
    lookupFS (normalize_real_files fsDangling false).2 ⟨"/r", "000001.jpg"⟩ =
      some FKind.file := by
  decide

/-- C10 (amended): `normalize_real_files` never renames or retargets a
symlink — every symlink entry is preserved verbatim, with its original
target string, unless its path is the target of a queued rename, in which
case the link was dangling (`exists()` false there) and can only be
clobbered by the arriving rename; in particular every symlink that exists
in the follow-symlink sense is untouched, and every non-`.jpg`-named
entry is untouched.  `fix_symlinks` never modifies any non-symlink entry,
creates no entry at a previously empty path, and leaves every
non-`.jpg`-named entry — symlinks included — unchanged. -/
theorem C10_frame_amended (fs : FS) :
    (∀ q t, lookupFS fs q = some (FKind.link t) → existsAt fs q = true →
      lookupFS (normalize_real_files fs false).2 q = some (FKind.link t)) ∧
    (∀ q k, lookupFS fs q = some k → jpgName q.name = false →
      lookupFS (normalize_real_files fs false).2 q = some k) ∧
    (keysNodup fs → ∀ dry q k, (∀ t, k ≠ FKind.link t) → lookupFS fs q = some k →
      lookupFS (fix_symlinks fs dry).fs q = some k) ∧
    (keysNodup fs → ∀ dry q, lookupFS fs q = none →
      lookupFS (fix_symlinks fs dry).fs q = none) ∧
    (∀ q t, lookupFS fs q = some (FKind.link t) →
      lookupFS (normalize_real_files fs false).2 q = some (FKind.link t) ∨
        (existsAt fs q = false ∧ ∃ c ∈ (scanReal fs).1, c.2 = q)) ∧
    (keysNodup fs → ∀ dry q k, jpgName q.name = false → lookupFS fs q = some k →
      lookupFS (fix_symlinks fs dry).fs q = some k) := by
  refine ⟨?_, ?_, ?_, ?_, ?_, ?_⟩
  · intro q t hql hex
    show lookupFS (applyRenames fs (scanReal fs).1) q = some (FKind.link t)
    rw [lookupFS_applyRenames_frame _ fs q ?_]
    · exact hql
    · intro c hm
      obtain ⟨hf1, hf2, _, _, _⟩ := changes_facts fs c hm
      constructor
      · intro hq
        rw [hq, hf1] at hql
        injection hql with hh
        cases hh
      · intro hq
        rw [hq, hf2] at hex
        cases hex
  · intro q k hql hj
    show lookupFS (applyRenames fs (scanReal fs).1) q = some k
    rw [lookupFS_applyRenames_frame _ fs q ?_]
    · exact hql
    · intro c hm
      obtain ⟨_, _, hw1, hj2, _⟩ := changes_facts fs c hm
      have hj1 : jpgName c.1.name = true := ((mem_walkJpg fs c.1).mp hw1).2
      constructor
      · intro hq
        rw [hq] at hj
        rw [hj] at hj1
        cases hj1
      · intro hq
        rw [hq] at hj
        rw [hj] at hj2
        cases hj2
  · intro hnd dry q k hk hql
    obtain ⟨_, _, _, hfr1, _⟩ := fix_symlinks_spec fs dry hnd
    rw [hfr1 q (Or.inr (Or.inl (retRelOf_of_not_link fs q
      (fun t hc => hk t (by rw [hql] at hc; injection hc))))), hql]
  · intro hnd dry q hql
    obtain ⟨_, _, _, hfr1, _⟩ := fix_symlinks_spec fs dry hnd
    rw [hfr1 q (Or.inr (Or.inl (retRelOf_of_not_link fs q
      (fun t hc => by rw [hql] at hc; cases hc)))), hql]
  · intro q t hql
    by_cases hq : ∃ c ∈ (scanReal fs).1, c.2 = q
    · obtain ⟨c, hc, hcq⟩ := hq
      right
      refine ⟨?_, ⟨c, hc, hcq⟩⟩
      have hdang := (changes_facts fs c hc).2.1
      rw [hcq] at hdang
      exact hdang
    · left
      show lookupFS (applyRenames fs (scanReal fs).1) q = some (FKind.link t)
      rw [lookupFS_applyRenames_frame _ fs q ?_]
      · exact hql
      · intro c hm
        obtain ⟨hf1, _, _, _, _⟩ := changes_facts fs c hm
        constructor
        · intro hq1
          rw [hq1, hf1] at hql
          injection hql with hh
          cases hh
        · intro hq2
          exact hq ⟨c, hm, hq2.symm⟩
  · intro hnd dry q k hj hql
    obtain ⟨_, _, _, hfr1, _⟩ := fix_symlinks_spec fs dry hnd
    have hqw : q ∉ walkJpg fs := by
      intro hm
      have hjt := ((mem_walkJpg fs q).mp hm).2
      rw [hj] at hjt
      cases hjt
    rw [hfr1 q (Or.inl hqw), hql]

theorem C10_frame_amended_witness :
    lookupFS (normalize_real_files fsCorrect false).2 ⟨"/r", "63x.jpg"⟩ =
      some (FKind.link "000063.jpg") :=
  (C10_frame_amended fsCorrect).1 ⟨"/r", "63x.jpg"⟩ "000063.jpg" (by decide) (by decide)

/-- C5 counterexample: on `fsStale` the preview run reports one broken
link and no retarget, while the apply run reports no broken link and one
retarget — the classification counts differ between the two modes, because
the apply run's second pass sees the renamed tree.  (The preview run does
leave the tree untouched.) -/
theorem C5_counterexample :
    (runTool fsStale false).summary.brokenCount = 1 ∧
    (runTool fsStale true).summary.brokenCount = 0 ∧
    (runTool fsStale false).summary.retargets = 0 ∧
    (runTool fsStale true).summary.retargets = 1 ∧
    (runTool fsStale false).fs = fsStale := by
  decide

/-- C5 (amended): preview mode performs zero filesystem mutations; pass
1's classification (renames and conflicts) is identical in the two modes;
and pass 2's classification is a pure function of the tree it scans,
independent of the mode — whole-run counts can still differ because the
apply run's pass 2 scans the renamed tree. -/
theorem C5_preview_purity (fs : FS) :
    (runTool fs false).fs = fs ∧
    (runTool fs false).changes = (runTool fs true).changes ∧
    (runTool fs false).conflicts = (runTool fs true).conflicts ∧
    (∀ g : FS, keysNodup g →
      (fix_symlinks g true).fixed = (fix_symlinks g false).fixed ∧
      (fix_symlinks g true).retargeted = (fix_symlinks g false).retargeted ∧
      (fix_symlinks g true).broken = (fix_symlinks g false).broken) := by
  refine ⟨?_, rfl, rfl, ?_⟩
  · show (fix_symlinks fs true).fs = fs
    exact foldl_linkStep_fs_of_dry _ _
  · intro g hnd
    obtain ⟨hf1, hr1, hb1, _, _⟩ := fix_symlinks_spec g true hnd
    obtain ⟨hf2, hr2, hb2, _, _⟩ := fix_symlinks_spec g false hnd
    exact ⟨hf1.trans hf2.symm, hr1.trans hr2.symm, hb1.trans hb2.symm⟩

theorem C5_preview_purity_witness :
    (runTool fsStale false).fs = fsStale ∧
    (fix_symlinks fsCorrect true).retargeted = (fix_symlinks fsCorrect false).retargeted := by
  refine ⟨(C5_preview_purity fsStale).1, ?_⟩
  exact ((C5_preview_purity fsStale).2.2.2 fsCorrect (by decide)).2.1

/-! ### Preservation of well-formedness by the two passes -/

theorem filter_map_fst (pc : Path → Bool) (fs : FS) :
    (fs.filter (fun e => pc e.1)).map Prod.fst = (fs.map Prod.fst).filter pc := by
  induction fs with
  | nil => rfl
  | cons e fs ih =>
    rw [List.filter_cons, List.map_cons, List.filter_cons]
    by_cases hp : pc e.1 = true
    · rw [if_pos hp, if_pos hp, List.map_cons, ih]
    · rw [if_neg (by simpa using hp), if_neg (by simpa using hp), ih]

theorem keysNodup_fsRename (fs : FS) (o n : Path) (h : keysNodup fs) :
    keysNodup (fsRename fs o n) := by
  unfold fsRename
  by_cases ho : o = n
  · rw [if_pos ho]; exact h
  · rw [if_neg ho]
    cases hk : lookupFS fs o with
    | none => exact h
    | some k =>
      show keysNodup (renameCore fs o n)
      unfold keysNodup renameCore
      rw [List.map_map]
      have hfun : (Prod.fst ∘ (fun e : Path × FKind => if e.1 = o then (n, e.2) else e)) =
          ((fun x => if x = o then n else x) ∘ Prod.fst) := by
        funext e
        by_cases he : e.1 = o
        · simp [he]
        · simp [he]
      rw [hfun, ← List.map_map]
      rw [show fs.filter (fun e => !decide (e.1 = n)) =
          fs.filter (fun e => (fun x => !decide (x = n)) e.1) from rfl]
      rw [filter_map_fst (fun x => !decide (x = n)) fs]
      apply List.Nodup.map_on
      · intro x hx y hy hxy
        have hxn : ¬(x = n) := by
          have := List.of_mem_filter hx
          simpa using this
        have hyn : ¬(y = n) := by
          have := List.of_mem_filter hy
          simpa using this
        by_cases hxo : x = o
        · by_cases hyo : y = o
          · rw [hxo, hyo]
          · rw [if_pos hxo, if_neg hyo] at hxy
            exact absurd hxy.symm hyn
        · by_cases hyo : y = o
          · rw [if_neg hxo, if_pos hyo] at hxy
            exact absurd hxy hxn
          · rw [if_neg hxo, if_neg hyo] at hxy
            exact hxy
      · exact List.Nodup.filter _ h

theorem keysNodup_applyRenames :
    ∀ (chs : List (Path × Path)) (fs : FS), keysNodup fs →
      keysNodup (applyRenames fs chs) := by
  intro chs
  induction chs with
  | nil => intro fs h; exact h
  | cons c rest ih =>
    intro fs h
    obtain ⟨o, n⟩ := c
    exact ih _ (keysNodup_fsRename fs o n h)

theorem map_fst_fsSetLink (fs : FS) (p : Path) (rel : String) :
    (fsSetLink fs p rel).map Prod.fst = fs.map Prod.fst := by
  induction fs with
  | nil => rfl
  | cons e fs ih =>
    show ((if e.1 = p then (p, FKind.link rel) else e) :: fsSetLink fs p rel).map Prod.fst = _
    rw [List.map_cons, List.map_cons, ih]
    congr 1
    by_cases he : e.1 = p
    · rw [if_pos he]
      exact he.symm
    · rw [if_neg he]

theorem foldl_linkStep_keys (dry : Bool) :
    ∀ (w : List Path) (st : LinkState),
      ((w.foldl (linkStep dry) st).fs).map Prod.fst = st.fs.map Prod.fst := by
  intro w
  induction w with
  | nil => intro st; rfl
  | cons p w ih =>
    intro st
    rw [List.foldl_cons, ih]
    unfold linkStep
    cases classifyLink st.fs p with
    | skip => rfl
    | correct => rfl
    | retarget rel =>
      show ((if dry then st.fs else fsSetLink st.fs p rel)).map Prod.fst = _
      cases dry with
      | true => rfl
      | false =>
        show (fsSetLink st.fs p rel).map Prod.fst = _
        exact map_fst_fsSetLink st.fs p rel
    | broken cur want => rfl

theorem keysNodup_fix_symlinks (fs : FS) (dry : Bool) (h : keysNodup fs) :
    keysNodup ((fix_symlinks fs dry).fs) := by
  unfold keysNodup
  unfold fix_symlinks
  rw [foldl_linkStep_keys]
  exact h

/-! ### The post-run canonical-state invariant -/

/-- Every real `.jpg` entry of the tree bears a canonical name (or has no
digits at all). -/
def GoodFS (g : FS) : Prop :=
  ∀ q k, lookupFS g q = some k → k = FKind.file → jpgName q.name = true →
    canonicalJpg q.name

theorem canonicalJpg_of_fmt (name : String) (v : Nat) (h : name = fmt06 v ++ ".jpg") :
    canonicalJpg name := by
  refine Or.inr ⟨fmt06 v, ?_, ?_⟩
  · rw [h]
    exact extract_num6_canonical v
  · rw [h, pySuffix_canonical v, pyLower_jpg]

theorem canonicalJpg_target (fs : FS) (c : Path × Path) (hm : c ∈ (scanReal fs).1) :
    canonicalJpg c.2.name := by
  obtain ⟨_, _, hw1, _, num6, hx6, hcw, _⟩ := changes_facts fs c hm
  have hj1 : jpgName c.1.name = true := ((mem_walkJpg fs c.1).mp hw1).2
  have hv : num6 = fmt06 (natOfDigits (c.1.name.data.filter Char.isDigit)) :=
    extract_num6_some_fmt c.1.name num6 hx6
  have hname : c.2.name = num6 ++ ".jpg" := by
    rw [hcw]
    exact (canonical_target_name c.1 num6 hj1 hx6).1
  exact canonicalJpg_of_fmt c.2.name (natOfDigits (c.1.name.data.filter Char.isDigit))
    (by rw [hname, hv])

theorem scanReal_changes_nil_of_good (g : FS) (hg : GoodFS g) :
    (scanReal g).1 = [] := by
  rw [scanReal_eq]
  rw [List.filterMap_eq_nil_iff]
  intro p hp
  unfold renameOut
  by_cases hk : lookupFS g p = some FKind.file
  · rw [realOut_none_of_canonical g p hk
      (hg p FKind.file hk rfl ((mem_walkJpg g p).mp hp).2)]
  · rw [realOut_none_of_not_file g p hk]

theorem applyRenames_good :
    ∀ (chs : List (Path × Path)) (g : FS),
      (∀ c ∈ chs, canonicalJpg c.2.name ∧ c.1 ≠ c.2) →
      (∀ q k, lookupFS g q = some k → k = FKind.file → jpgName q.name = true →
        canonicalJpg q.name ∨ ∃ c ∈ chs, q = c.1) →
      ∀ q k, lookupFS (applyRenames g chs) q = some k → k = FKind.file →
        jpgName q.name = true → canonicalJpg q.name := by
  intro chs
  induction chs with
  | nil =>
    intro g _ hg q k hl hk hj
    rcases hg q k hl hk hj with hcan | ⟨c, hcm, _⟩
    · exact hcan
    · cases hcm
  | cons c rest ih =>
    intro g hprops hg q k hl hk hj
    obtain ⟨o, n⟩ := c
    have hon : o ≠ n := (hprops (o, n) (List.mem_cons_self _ _)).2
    have hcann : canonicalJpg n.name := (hprops (o, n) (List.mem_cons_self _ _)).1
    refine ih (fsRename g o n)
      (fun c hcm => hprops c (List.mem_cons_of_mem _ hcm)) ?_ q k hl hk hj
    intro q' k' hl' hk' hj'
    cases hko : lookupFS g o with
    | none =>
      rw [fsRename_of_absent g o n hko] at hl'
      rcases hg q' k' hl' hk' hj' with hcan | ⟨c', hcm', hqc'⟩
      · exact Or.inl hcan
      · rcases List.mem_cons.mp hcm' with hce | hcm''
        · rw [hce] at hqc'
          rw [hqc'] at hl'
          rw [hl'] at hko
          cases hko
        · exact Or.inr ⟨c', hcm'', hqc'⟩
    | some k0 =>
      rw [fsRename_eq_core g o n hon k0 hko, lookupFS_renameCore g o n q' hon] at hl'
      by_cases hqn : q' = n
      · rw [hqn]
        exact Or.inl hcann
      · rw [if_neg hqn] at hl'
        by_cases hqo : q' = o
        · rw [if_pos hqo] at hl'
          cases hl'
        · rw [if_neg hqo] at hl'
          rcases hg q' k' hl' hk' hj' with hcan | ⟨c', hcm', hqc'⟩
          · exact Or.inl hcan
          · rcases List.mem_cons.mp hcm' with hce | hcm''
            · rw [hce] at hqc'
              exact absurd hqc' hqo
            · exact Or.inr ⟨c', hcm'', hqc'⟩

theorem realOut_file_digits (fs : FS) (q : Path) (num6 : String)
    (hk : lookupFS fs q = some FKind.file)
    (hx : extract_num6 q.name = some num6)
    (hnm : q.name ≠ (wantOf q num6).name) :
    realOut fs q = (if existsAt fs (wantOf q num6) = true
      then some (Sum.inr (q, wantOf q num6))
      else some (Sum.inl (q, wantOf q num6))) := by
  unfold realOut
  rw [show isSymlinkAt fs q = false from isSymlinkAt_false_of_file fs q hk]
  rw [show isFileAt fs q = true from isFileAt_of_file fs q hk]
  rw [if_neg (by simp), if_neg (by simp), hx]
  dsimp only
  rw [if_neg (show ¬(q.name = (⟨q.dir, num6 ++ pyLower (pySuffix q.name)⟩ : Path).name) from hnm)]
  by_cases hex : existsAt fs (⟨q.dir, num6 ++ pyLower (pySuffix q.name)⟩ : Path) = true
  · rw [if_pos hex, if_pos (show existsAt fs (wantOf q num6) = true from hex)]
    rfl
  · rw [if_neg hex, if_neg (show ¬(existsAt fs (wantOf q num6) = true) from hex)]
    rfl

theorem goodFS_after_scan (fs : FS) (hc : (scanReal fs).2 = []) :
    GoodFS (applyRenames fs (scanReal fs).1) := by
  intro q k hl hk hj
  refine applyRenames_good (scanReal fs).1 fs ?_ ?_ q k hl hk hj
  · intro c hcm
    obtain ⟨_, _, _, _, num6, _, _, hnm⟩ := changes_facts fs c hcm
    exact ⟨canonicalJpg_target fs c hcm, fun hce => hnm (congrArg Path.name hce)⟩
  · intro q' k' hl' hk' hj'
    subst hk'
    have hw : q' ∈ walkJpg fs := mem_walkJpg_of_lookup fs q' _ hl' hj'
    cases hx : extract_num6 q'.name with
    | none => exact Or.inl (Or.inl hx)
    | some num6 =>
      by_cases hnm : q'.name = num6 ++ pyLower (pySuffix q'.name)
      · exact Or.inl (Or.inr ⟨num6, hx, hnm⟩)
      · have hnm' : q'.name ≠ (wantOf q' num6).name := hnm
        by_cases hex : existsAt fs (wantOf q' num6) = true
        · exfalso
          have hro := realOut_file_digits fs q' num6 hl' hx hnm'
          rw [if_pos hex] at hro
          have hco : conflictOut fs q' = some (q', wantOf q' num6) := by
            unfold conflictOut
            rw [hro]
          have hmem : (q', wantOf q' num6) ∈ (scanReal fs).2 := by
            rw [scanReal_eq]
            exact List.mem_filterMap.mpr ⟨q', hw, hco⟩
          rw [hc] at hmem
          cases hmem
        · have hro := realOut_file_digits fs q' num6 hl' hx hnm'
          rw [if_neg hex] at hro
          have hrn : renameOut fs q' = some (q', wantOf q' num6) := by
            unfold renameOut
            rw [hro]
          refine Or.inr ⟨(q', wantOf q' num6), ?_, rfl⟩
          rw [scanReal_eq]
          exact List.mem_filterMap.mpr ⟨q', hw, hrn⟩

theorem classify_skip_of_no_digits (fs : FS) (p : Path)
    (hx : extract_num6 p.name = none) : classifyLink fs p = LinkAction.skip := by
  unfold classifyLink
  by_cases hsym : isSymlinkAt fs p = true
  · rw [show (!isSymlinkAt fs p) = false from by rw [hsym]; rfl]
    rw [if_neg (by simp), hx]
  · rw [if_pos (show (!isSymlinkAt fs p) = true from by
      cases hbb : isSymlinkAt fs p
      · rfl
      · exact absurd hbb hsym)]

theorem goodFS_fix_symlinks (g : FS) (dry : Bool) (hnd : keysNodup g)
    (hg : GoodFS g) : GoodFS ((fix_symlinks g dry).fs) := by
  intro q k hl hk hj
  obtain ⟨_, _, _, hfr1, hfr2⟩ := fix_symlinks_spec g dry hnd
  cases hrr : retRelOf g q with
  | none =>
    rw [hfr1 q (Or.inr (Or.inl hrr))] at hl
    exact hg q k hl hk hj
  | some rel =>
    by_cases hqw : q ∈ walkJpg g
    · cases dry with
      | true =>
        rw [hfr1 q (Or.inr (Or.inr rfl))] at hl
        exact hg q k hl hk hj
      | false =>
        rw [hfr2 q rel rfl hqw hrr] at hl
        injection hl with hh
        rw [← hh] at hk
        cases hk
    · rw [hfr1 q (Or.inl hqw)] at hl
      exact hg q k hl hk hj

/-- After a broken-free apply run of `fix_symlinks`, every `.jpg` symlink
with digits points at the canonical sibling, which holds a plain file. -/
theorem fix_symlinks_link_invariant (g : FS) (hnd : keysNodup g)
    (hb : (fix_symlinks g false).broken = []) :
    ∀ p t num6, lookupFS ((fix_symlinks g false).fs) p = some (FKind.link t) →
      jpgName p.name = true → extract_num6 p.name = some num6 →
      lookupFS ((fix_symlinks g false).fs) (wantOf p num6) = some FKind.file ∧
        t = relpathFrom p.dir (wantOf p num6) := by
  obtain ⟨_, _, hbrk, hfr1, hfr2⟩ := fix_symlinks_spec g false hnd
  have hbp : ∀ p ∈ walkJpg g, brokenOut g p = none := by
    rw [hbrk] at hb
    exact (List.filterMap_eq_nil_iff).mp hb
  intro p t num6 hl hj hx
  have hwant_fs2 : lookupFS g (wantOf p num6) = some FKind.file →
      lookupFS ((fix_symlinks g false).fs) (wantOf p num6) = some FKind.file := by
    intro hwf
    rw [hfr1 (wantOf p num6) (Or.inr (Or.inl (retRelOf_of_not_link g (wantOf p num6)
      (fun t' hc => by rw [hwf] at hc; injection hc with hh; cases hh))))]
    exact hwf
  cases hrr : retRelOf g p with
  | none =>
    rw [hfr1 p (Or.inr (Or.inl hrr))] at hl
    have hw : p ∈ walkJpg g := mem_walkJpg_of_lookup g p _ hl hj
    have hcl := classify_of_link g p t num6 hl hx
    by_cases hwf : lookupFS g (wantOf p num6) = some FKind.file
    · rw [if_pos hwf] at hcl
      by_cases ht : some t ≠ some (relpathFrom p.dir (wantOf p num6))
      · rw [if_pos ht] at hcl
        exfalso
        have : retRelOf g p = some (relpathFrom p.dir (wantOf p num6)) := by
          unfold retRelOf
          rw [hcl]
        rw [hrr] at this
        cases this
      · rw [if_neg ht] at hcl
        exact ⟨hwant_fs2 hwf, Option.some.inj (not_not.mp ht)⟩
    · rw [if_neg hwf] at hcl
      exfalso
      have : brokenOut g p = some (p, some t, wantOf p num6) := by
        unfold brokenOut
        rw [hcl]
      rw [hbp p hw] at this
      cases this
  | some rel =>
    by_cases hqw : p ∈ walkJpg g
    · have hl2 := hfr2 p rel rfl hqw hrr
      rw [hl2] at hl
      injection hl with hh
      have htrel : t = rel := (FKind.link.inj hh).symm
      have hclr : classifyLink g p = LinkAction.retarget rel := by
        unfold retRelOf at hrr
        cases hcl : classifyLink g p with
        | skip => rw [hcl] at hrr; cases hrr
        | correct => rw [hcl] at hrr; cases hrr
        | broken cur want => rw [hcl] at hrr; cases hrr
        | retarget rel' =>
          rw [hcl] at hrr
          injection hrr with hh'
          rw [hh']
      obtain ⟨t', num6', hl', hx', hwf', hrel', _⟩ := classify_retarget_shape g p rel hclr
      have hnn : num6' = num6 := Option.some.inj (hx'.symm.trans hx)
      subst hnn
      exact ⟨hwant_fs2 hwf', by rw [htrel, hrel']⟩
    · exfalso
      have hl' : lookupFS ((fix_symlinks g false).fs) p = lookupFS g p :=
        hfr1 p (Or.inl hqw)
      rw [hl'] at hl
      exact hqw (mem_walkJpg_of_lookup g p _ hl hj)

/-- If every `.jpg` symlink with digits already points at the canonical
sibling file, `fix_symlinks` retargets nothing. -/
theorem fix_symlinks_retargets_nil (g : FS) (hnd : keysNodup g)
    (hok : ∀ p t num6, lookupFS g p = some (FKind.link t) →
      jpgName p.name = true → extract_num6 p.name = some num6 →
      lookupFS g (wantOf p num6) = some FKind.file ∧
        t = relpathFrom p.dir (wantOf p num6)) :
    ∀ (dry : Bool), (fix_symlinks g dry).retargeted = [] := by
  intro dry
  obtain ⟨_, hret, _, _, _⟩ := fix_symlinks_spec g dry hnd
  rw [hret, List.filterMap_eq_nil_iff]
  intro p hp
  unfold retargetOut
  have hrr : retRelOf g p = none := by
    cases hlp : lookupFS g p with
    | none => exact retRelOf_of_not_link g p (fun t hc => by rw [hlp] at hc; cases hc)
    | some k =>
      cases k with
      | file =>
        exact retRelOf_of_not_link g p (fun t hc => by
          rw [hlp] at hc
          injection hc with hh
          cases hh)
      | other =>
        exact retRelOf_of_not_link g p (fun t hc => by
          rw [hlp] at hc
          injection hc with hh
          cases hh)
      | link t =>
        cases hx : extract_num6 p.name with
        | none =>
          unfold retRelOf
          rw [classify_skip_of_no_digits g p hx]
        | some num6 =>
          have hj : jpgName p.name = true := ((mem_walkJpg g p).mp hp).2
          obtain ⟨hwf, ht⟩ := hok p t num6 hlp hj hx
          have hcl := classify_of_link g p t num6 hlp hx
          rw [if_pos hwf, if_neg (not_not.mpr (congrArg some ht))] at hcl
          unfold retRelOf
          rw [hcl]
  rw [hrr]
  rfl

/-- C6: after an apply run that completes with zero conflicts and zero
broken links, a second apply run on the resulting tree queues zero renames
and records zero retargets: every real file already bears its canonical
name and every link already points at the correct relative target, so
neither produces a record. -/
theorem C6_idempotent (fs : FS) (hnd : keysNodup fs)
    (hc : (runTool fs true).conflicts = [])
    (hb : (runTool fs true).broken = []) :
    (runTool (runTool fs true).fs true).changes = [] ∧
    (runTool (runTool fs true).fs true).retargeted = [] := by
  have hc' : (scanReal fs).2 = [] := hc
  have hb' : (fix_symlinks (applyRenames fs (scanReal fs).1) false).broken = [] := hb
  have hnd1 : keysNodup (applyRenames fs (scanReal fs).1) :=
    keysNodup_applyRenames (scanReal fs).1 fs hnd
  have hg1 : GoodFS (applyRenames fs (scanReal fs).1) := goodFS_after_scan fs hc'
  have hnd2 : keysNodup ((fix_symlinks (applyRenames fs (scanReal fs).1) false).fs) :=
    keysNodup_fix_symlinks _ false hnd1
  have hg2 : GoodFS ((fix_symlinks (applyRenames fs (scanReal fs).1) false).fs) :=
    goodFS_fix_symlinks _ false hnd1 hg1
  have hok2 := fix_symlinks_link_invariant (applyRenames fs (scanReal fs).1) hnd1 hb'
  have hch2 : (scanReal ((fix_symlinks (applyRenames fs (scanReal fs).1) false).fs)).1 = [] :=
    scanReal_changes_nil_of_good _ hg2
  constructor
  · show (scanReal ((fix_symlinks (applyRenames fs (scanReal fs).1) false).fs)).1 = []
    exact hch2
  · show (fix_symlinks (applyRenames
      ((fix_symlinks (applyRenames fs (scanReal fs).1) false).fs)
      (scanReal ((fix_symlinks (applyRenames fs (scanReal fs).1) false).fs)).1)
        false).retargeted = []
    rw [hch2]
    show (fix_symlinks ((fix_symlinks (applyRenames fs (scanReal fs).1) false).fs)
      false).retargeted = []
    exact fix_symlinks_retargets_nil _ hnd2 hok2 false

theorem C6_idempotent_witness :
    (runTool (runTool fsStale true).fs true).changes = [] ∧
    (runTool (runTool fsStale true).fs true).retargeted = [] :=
  C6_idempotent fsStale (by decide) (by decide) (by decide)

/-! ### Exception model: which operations raise, and what the
`try`/`except` structure of the source does with each failure -/

/-- An oracle choosing which filesystem calls raise an exception:
`statFails` for `is_symlink`/`is_file` on an entry, `readlinkFails` for
`os.readlink`, `renameFails` for `Path.rename`, and `unlinkFails` /
`symlinkFails` for the two halves of the retarget. -/
structure ExcOracle where
  statFails : Path → Bool
  readlinkFails : Path → Bool
  renameFails : Path → Path → Bool
  unlinkFails : Path → Bool
  symlinkFails : Path → Bool

/-- The oracle under which nothing raises. -/
def noFail : ExcOracle := ⟨fun _ => false, fun _ => false, fun _ _ => false,
  fun _ => false, fun _ => false⟩

/-- One iteration of the `normalize_real_files` scan loop with exceptions:
the body (lines 31-49) runs inside `try`, so a raising entry is logged
(lines 50-51) as an error record and the loop continues with the next
entry. -/
def realScanStepE (E : ExcOracle) (fs : FS)
    (acc : (List (Path × Path) × List (Path × Path)) × List Path) (p : Path) :
    (List (Path × Path) × List (Path × Path)) × List Path :=
  if E.statFails p then (acc.1, acc.2 ++ [p])
  else (realScanStep fs acc.1 p, acc.2)

/-- The scan phase of `normalize_real_files` with exceptions: records plus
the error log. -/
def scanRealE (E : ExcOracle) (fs : FS) :
    (List (Path × Path) × List (Path × Path)) × List Path :=
  (walkJpg fs).foldl (realScanStepE E fs) (([], []), [])

/-- The apply loop (lines 55-58) is NOT inside any `try`: the first
`old.rename(new)` that raises propagates out of `normalize_real_files`,
abandoning every rename still queued after it. -/
def applyRenamesE (E : ExcOracle) : FS → List (Path × Path) → Except (Path × Path) FS
  | fs, [] => Except.ok fs
  | fs, (o, n) :: rest =>
    if E.renameFails o n then Except.error (o, n)
    else applyRenamesE E (fsRename fs o n) rest

/-- `normalize_real_files` with exceptions: an uncaught rename failure
aborts the whole call (and with it the program). -/
def normalize_real_filesE (E : ExcOracle) (fs : FS) (dry_run : Bool) :
    Except (Path × Path) ((List (Path × Path) × List (Path × Path)) × List Path × FS) :=
  let sc := scanRealE E fs
  if dry_run then Except.ok (sc.1, sc.2, fs)
  else
    match applyRenamesE E fs sc.1.1 with
    | Except.ok fs' => Except.ok (sc.1, sc.2, fs')
    | Except.error c => Except.error c

/-- `p.unlink()`: remove the entry at `p`. -/
def fsUnlink (fs : FS) (p : Path) : FS :=
  fs.filter (fun e => !decide (e.1 = p))

/-- The `fix_symlinks` decision with a possibly failing `os.readlink`:
lines 81-84 catch `OSError` from `readlink` and continue with `None` as
the current target. -/
def classifyLinkE (E : ExcOracle) (fs : FS) (p : Path) : LinkAction :=
  if !isSymlinkAt fs p then LinkAction.skip
  else
    match extract_num6 p.name with
    | none => LinkAction.skip
    | some num6 =>
      let cur := if E.readlinkFails p then none else readlinkPure fs p
      if existsAt fs (wantOf p num6) && isFileAt fs (wantOf p num6) &&
          !isSymlinkAt fs (wantOf p num6) then
        if cur ≠ some (relpathFrom p.dir (wantOf p num6)) then
          LinkAction.retarget (relpathFrom p.dir (wantOf p num6))
        else LinkAction.correct
      else LinkAction.broken cur (wantOf p num6)

/-- One iteration of the `fix_symlinks` loop with exceptions: the body
runs inside `try` (lines 69-106), so a stat failure, an `unlink` failure,
or a `symlink` failure is logged per entry and the loop continues; a
`symlink` failure after a successful `unlink` leaves the entry removed. -/
def linkStepE (E : ExcOracle) (dry_run : Bool) (stE : LinkState × List Path) (p : Path) :
    LinkState × List Path :=
  if E.statFails p then (stE.1, stE.2 ++ [p])
  else
    match classifyLinkE E stE.1.fs p with
    | LinkAction.skip => stE
    | LinkAction.correct => ({ stE.1 with fixed := stE.1.fixed ++ [p] }, stE.2)
    | LinkAction.retarget rel =>
      if dry_run then
        ({ stE.1 with retargeted := stE.1.retargeted ++ [(p, rel)] }, stE.2)
      else if E.unlinkFails p then (stE.1, stE.2 ++ [p])
      else if E.symlinkFails p then
        ({ stE.1 with fs := fsUnlink stE.1.fs p }, stE.2 ++ [p])
      else
        (⟨stE.1.fixed, stE.1.retargeted ++ [(p, rel)], stE.1.broken,
          fsSetLink stE.1.fs p rel⟩, stE.2)
    | LinkAction.broken cur want =>
      ({ stE.1 with broken := stE.1.broken ++ [(p, cur, want)] }, stE.2)

/-- `fix_symlinks` with exceptions: records plus the error log. -/
def fix_symlinksE (E : ExcOracle) (fs : FS) (dry_run : Bool) : LinkState × List Path :=
  (walkJpg fs).foldl (linkStepE E dry_run) (⟨[], [], [], fs⟩, [])

theorem classifyLinkE_eq (E : ExcOracle) (fs : FS) (p : Path)
    (h : E.readlinkFails p = false) : classifyLinkE E fs p = classifyLink fs p := by
  unfold classifyLinkE classifyLink
  rw [h]
  rfl

theorem linkStepE_eq (E : ExcOracle)
    (h1 : ∀ p, E.readlinkFails p = false)
    (h2 : ∀ p, E.unlinkFails p = false)
    (h3 : ∀ p, E.symlinkFails p = false)
    (dry : Bool) (st : LinkState) (errs : List Path) (p : Path) :
    linkStepE E dry (st, errs) p =
      if E.statFails p then (st, errs ++ [p]) else (linkStep dry st p, errs) := by
  unfold linkStepE linkStep
  by_cases hsf : E.statFails p = true
  · rw [if_pos hsf, if_pos hsf]
  · rw [if_neg hsf, if_neg hsf]
    rw [show (st, errs).1 = st from rfl]
    rw [classifyLinkE_eq E st.fs p (h1 p)]
    cases hcl : classifyLink st.fs p with
    | skip => rfl
    | correct => rfl
    | broken cur want => rfl
    | retarget rel =>
      rw [h2 p]
      rw [h3 p]
      cases dry with
      | true => rfl
      | false => rfl

theorem foldl_realScanStepE (E : ExcOracle) (fs : FS) :
    ∀ (w : List Path) (acc : List (Path × Path) × List (Path × Path)) (errs : List Path),
      w.foldl (realScanStepE E fs) (acc, errs) =
        ((w.filter (fun p => !E.statFails p)).foldl (realScanStep fs) acc,
          errs ++ w.filter (fun p => E.statFails p)) := by
  intro w
  induction w with
  | nil => intro acc errs; simp
  | cons p w ih =>
    intro acc errs
    rw [List.foldl_cons, List.filter_cons, List.filter_cons]
    by_cases hsf : E.statFails p = true
    · rw [if_pos hsf]
      rw [show realScanStepE E fs (acc, errs) p = (acc, errs ++ [p]) from by
        unfold realScanStepE
        rw [if_pos hsf]]
      rw [if_neg (by simp [hsf]), ih]
      simp
    · have hsf' : E.statFails p = false := by
        cases hbb : E.statFails p
        · rfl
        · exact absurd hbb hsf
      rw [if_neg hsf]
      rw [show realScanStepE E fs (acc, errs) p = (realScanStep fs acc p, errs) from by
        unfold realScanStepE
        rw [if_neg hsf]]
      rw [if_pos (by simp [hsf']), ih, List.foldl_cons]

theorem foldl_linkStepE (E : ExcOracle)
    (h1 : ∀ p, E.readlinkFails p = false)
    (h2 : ∀ p, E.unlinkFails p = false)
    (h3 : ∀ p, E.symlinkFails p = false) (dry : Bool) :
    ∀ (w : List Path) (st : LinkState) (errs : List Path),
      w.foldl (linkStepE E dry) (st, errs) =
        ((w.filter (fun p => !E.statFails p)).foldl (linkStep dry) st,
          errs ++ w.filter (fun p => E.statFails p)) := by
  intro w
  induction w with
  | nil => intro st errs; simp
  | cons p w ih =>
    intro st errs
    rw [List.foldl_cons, List.filter_cons, List.filter_cons,
      linkStepE_eq E h1 h2 h3 dry st errs p]
    by_cases hsf : E.statFails p = true
    · rw [if_pos hsf, if_neg (by simp [hsf]), if_pos hsf, ih]
      simp
    · have hsf' : E.statFails p = false := by
        cases hbb : E.statFails p
        · rfl
        · exact absurd hbb hsf
      rw [if_neg hsf, if_pos (by simp [hsf']), if_neg hsf, ih, List.foldl_cons]

theorem lookupFS_fsUnlink (fs : FS) (p q : Path) :
    lookupFS (fsUnlink fs p) q = if q = p then none else lookupFS fs q := by
  induction fs with
  | nil => by_cases h : q = p <;> simp [fsUnlink, lookupFS_nil, h]
  | cons e fs ih =>
    show lookupFS ((e :: fs).filter (fun e => !decide (e.1 = p))) q = _
    rw [List.filter_cons]
    by_cases he : e.1 = p <;> by_cases hq : q = p <;> by_cases heq : e.1 = q <;>
      simp_all [lookupFS_cons, fsUnlink]

/-- The exception-aware classification depends on the tree only through
the entry's own lookup and through which paths hold plain regular files:
the mutations the loop can make (rewriting a link's target, or removing a
link after a failed `symlink`) never change either for the remaining
entries. -/
theorem classifyLinkE_congr (E : ExcOracle) (fs fs' : FS) (p : Path)
    (hfile : ∀ q, lookupFS fs q = some FKind.file ↔ lookupFS fs' q = some FKind.file)
    (hp : lookupFS fs p = lookupFS fs' p) :
    classifyLinkE E fs p = classifyLinkE E fs' p := by
  unfold classifyLinkE readlinkPure
  rw [show isSymlinkAt fs p = isSymlinkAt fs' p from by
        rw [isSymlinkAt_eq_shape, isSymlinkAt_eq_shape, hp]]
  rw [hp]
  cases hx : extract_num6 p.name with
  | none => rfl
  | some num6 =>
    dsimp only
    rw [show (existsAt fs (wantOf p num6) && isFileAt fs (wantOf p num6) &&
          !isSymlinkAt fs (wantOf p num6)) =
        (existsAt fs' (wantOf p num6) && isFileAt fs' (wantOf p num6) &&
          !isSymlinkAt fs' (wantOf p num6)) from by
      rw [plainFile_eq_decide, plainFile_eq_decide]
      exact decide_eq_decide.mpr (hfile (wantOf p num6))]

theorem classifyE_retarget_link (E : ExcOracle) (fs : FS) (p : Path) (rel : String)
    (h : classifyLinkE E fs p = LinkAction.retarget rel) :
    ∃ t, lookupFS fs p = some (FKind.link t) := by
  unfold classifyLinkE at h
  by_cases hsym : isSymlinkAt fs p = true
  · unfold isSymlinkAt at hsym
    cases hl : lookupFS fs p with
    | none => rw [hl] at hsym; cases hsym
    | some k =>
      cases k with
      | link t => exact ⟨t, rfl⟩
      | file => rw [hl] at hsym; cases hsym
      | other => rw [hl] at hsym; cases hsym
  · have hb : (!isSymlinkAt fs p) = true := by
      cases hbb : isSymlinkAt fs p
      · rfl
      · exact absurd hbb hsym
    rw [if_pos hb] at h
    cases h

/-- The retarget relative target the exception-aware classification picks
for `p`, if any. -/
def retRelOfE (E : ExcOracle) (g : FS) (p : Path) : Option String :=
  match classifyLinkE E g p with
  | LinkAction.retarget rel => some rel
  | _ => none

/-- Whether `p` is recorded as already correct in the exception-aware run:
its stat succeeds and the classification is `correct`. -/
def correctBE (E : ExcOracle) (g : FS) (p : Path) : Bool :=
  !E.statFails p && decide (classifyLinkE E g p = LinkAction.correct)

/-- The retarget record `p` contributes in the exception-aware run, if
any: its stat succeeds, it classifies as a retarget, and the mutation —
attempted only outside dry-run mode — hits no `unlink`/`symlink`
failure. -/
def retargetedOutE (E : ExcOracle) (dry : Bool) (g : FS) (p : Path) :
    Option (Path × String) :=
  if E.statFails p || (!dry && (E.unlinkFails p || E.symlinkFails p)) then none
  else (retRelOfE E g p).map (fun rel => (p, rel))

/-- The broken-link record `p` contributes in the exception-aware run. -/
def brokenOutE (E : ExcOracle) (g : FS) (p : Path) :
    Option (Path × Option String × Path) :=
  if E.statFails p then none
  else
    match classifyLinkE E g p with
    | LinkAction.broken cur want => some (p, cur, want)
    | _ => none

/-- Whether the per-entry handler logs `p` as an error: its stat fails, or
it classifies as a retarget and the retarget attempt (made only outside
dry-run mode) hits an `unlink` or `symlink` failure. -/
def errBE (E : ExcOracle) (dry : Bool) (g : FS) (p : Path) : Bool :=
  E.statFails p ||
    ((retRelOfE E g p).isSome && !dry && (E.unlinkFails p || E.symlinkFails p))

/-- Master induction for the exception-aware `fix_symlinks` loop under an
arbitrary oracle: every record list and the error log are determined
entrywise by each entry's own classification against the initial tree and
its own failures — a failing entry contributes exactly its error record
and the fold continues through the remaining entries unperturbed. -/
theorem linkFoldE_spec (E : ExcOracle) (dry : Bool) (fs0 : FS) :
    ∀ (w : List Path) (st : LinkState) (errs : List Path),
      w.Nodup →
      (∀ p ∈ w, lookupFS st.fs p = lookupFS fs0 p) →
      (∀ q, lookupFS st.fs q = some FKind.file ↔ lookupFS fs0 q = some FKind.file) →
      ((w.foldl (linkStepE E dry) (st, errs)).1.fixed =
          st.fixed ++ w.filter (correctBE E fs0)) ∧
      ((w.foldl (linkStepE E dry) (st, errs)).1.retargeted =
          st.retargeted ++ w.filterMap (retargetedOutE E dry fs0)) ∧
      ((w.foldl (linkStepE E dry) (st, errs)).1.broken =
          st.broken ++ w.filterMap (brokenOutE E fs0)) ∧
      ((w.foldl (linkStepE E dry) (st, errs)).2 =
          errs ++ w.filter (errBE E dry fs0)) := by
  intro w
  induction w with
  | nil =>
    intro st errs _ _ _
    exact ⟨by simp, by simp, by simp, by simp⟩
  | cons p w ih =>
    intro st errs hnd hlk hfile
    have hnd' : w.Nodup := (List.nodup_cons.mp hnd).2
    have hpnotw : p ∉ w := (List.nodup_cons.mp hnd).1
    have hclass : classifyLinkE E st.fs p = classifyLinkE E fs0 p :=
      classifyLinkE_congr E st.fs fs0 p hfile (hlk p (List.mem_cons_self p w))
    rw [List.foldl_cons]
    by_cases hsf : E.statFails p = true
    · have hstep : linkStepE E dry (st, errs) p = (st, errs ++ [p]) := by
        unfold linkStepE
        dsimp only
        rw [if_pos hsf]
      rw [hstep]
      obtain ⟨h1, h2, h3, h4⟩ :=
        ih st (errs ++ [p]) hnd' (fun q hq => hlk q (List.mem_cons_of_mem p hq)) hfile
      refine ⟨?_, ?_, ?_, ?_⟩
      · rw [h1, List.filter_cons,
          show correctBE E fs0 p = false from by simp [correctBE, hsf]]
        simp
      · rw [h2, List.filterMap_cons,
          show retargetedOutE E dry fs0 p = none from by simp [retargetedOutE, hsf]]
      · rw [h3, List.filterMap_cons,
          show brokenOutE E fs0 p = none from by simp [brokenOutE, hsf]]
      · rw [h4, List.filter_cons,
          show errBE E dry fs0 p = true from by simp [errBE, hsf]]
        simp
    · have hsf' : E.statFails p = false := by
        cases hbb : E.statFails p
        · rfl
        · exact absurd hbb hsf
      cases hcl : classifyLinkE E fs0 p with
      | skip =>
        have hstep : linkStepE E dry (st, errs) p = (st, errs) := by
          unfold linkStepE
          dsimp only
          rw [if_neg hsf, hclass, hcl]
        rw [hstep]
        obtain ⟨h1, h2, h3, h4⟩ :=
          ih st errs hnd' (fun q hq => hlk q (List.mem_cons_of_mem p hq)) hfile
        refine ⟨?_, ?_, ?_, ?_⟩
        · rw [h1, List.filter_cons,
            show correctBE E fs0 p = false from by simp [correctBE, hcl]]
          simp
        · rw [h2, List.filterMap_cons,
            show retargetedOutE E dry fs0 p = none from by
              simp [retargetedOutE, retRelOfE, hcl]]
        · rw [h3, List.filterMap_cons,
            show brokenOutE E fs0 p = none from by simp [brokenOutE, hsf', hcl]]
        · rw [h4, List.filter_cons,
            show errBE E dry fs0 p = false from by
              simp [errBE, retRelOfE, hsf', hcl]]
          simp
      | correct =>
        have hstep : linkStepE E dry (st, errs) p =
            ((⟨st.fixed ++ [p], st.retargeted, st.broken, st.fs⟩ : LinkState), errs) := by
          unfold linkStepE
          dsimp only
          rw [if_neg hsf, hclass, hcl]
        rw [hstep]
        obtain ⟨h1, h2, h3, h4⟩ :=
          ih (⟨st.fixed ++ [p], st.retargeted, st.broken, st.fs⟩ : LinkState) errs hnd'
            (fun q hq => hlk q (List.mem_cons_of_mem p hq)) hfile
        refine ⟨?_, ?_, ?_, ?_⟩
        · rw [h1, List.filter_cons,
            show correctBE E fs0 p = true from by simp [correctBE, hsf', hcl]]
          simp
        · rw [h2, List.filterMap_cons,
            show retargetedOutE E dry fs0 p = none from by
              simp [retargetedOutE, retRelOfE, hcl]]
        · rw [h3, List.filterMap_cons,
            show brokenOutE E fs0 p = none from by simp [brokenOutE, hsf', hcl]]
        · rw [h4, List.filter_cons,
            show errBE E dry fs0 p = false from by
              simp [errBE, retRelOfE, hsf', hcl]]
          simp
      | broken cur want =>
        have hstep : linkStepE E dry (st, errs) p =
            ((⟨st.fixed, st.retargeted, st.broken ++ [(p, cur, want)], st.fs⟩ : LinkState),
              errs) := by
          unfold linkStepE
          dsimp only
          rw [if_neg hsf, hclass, hcl]
        rw [hstep]
        obtain ⟨h1, h2, h3, h4⟩ :=
          ih (⟨st.fixed, st.retargeted, st.broken ++ [(p, cur, want)], st.fs⟩ : LinkState)
            errs hnd' (fun q hq => hlk q (List.mem_cons_of_mem p hq)) hfile
        refine ⟨?_, ?_, ?_, ?_⟩
        · rw [h1, List.filter_cons,
            show correctBE E fs0 p = false from by simp [correctBE, hcl]]
          simp
        · rw [h2, List.filterMap_cons,
            show retargetedOutE E dry fs0 p = none from by
              simp [retargetedOutE, retRelOfE, hcl]]
        · rw [h3, List.filterMap_cons,
            show brokenOutE E fs0 p = some (p, cur, want) from by
              simp [brokenOutE, hsf', hcl]]
          simp
        · rw [h4, List.filter_cons,
            show errBE E dry fs0 p = false from by
              simp [errBE, retRelOfE, hsf', hcl]]
          simp
      | retarget rel =>
        obtain ⟨t, hlt0⟩ := classifyE_retarget_link E fs0 p rel hcl
        have hlt' : lookupFS st.fs p = some (FKind.link t) := by
          rw [hlk p (List.mem_cons_self p w)]
          exact hlt0
        cases dry with
        | true =>
          have hstep : linkStepE E true (st, errs) p =
              ((⟨st.fixed, st.retargeted ++ [(p, rel)], st.broken, st.fs⟩ : LinkState),
                errs) := by
            unfold linkStepE
            dsimp only
            rw [if_neg hsf, hclass, hcl]
            rfl
          rw [hstep]
          obtain ⟨h1, h2, h3, h4⟩ :=
            ih (⟨st.fixed, st.retargeted ++ [(p, rel)], st.broken, st.fs⟩ : LinkState)
              errs hnd' (fun q hq => hlk q (List.mem_cons_of_mem p hq)) hfile
          refine ⟨?_, ?_, ?_, ?_⟩
          · rw [h1, List.filter_cons,
              show correctBE E fs0 p = false from by simp [correctBE, hcl]]
            simp
          · rw [h2, List.filterMap_cons,
              show retargetedOutE E true fs0 p = some (p, rel) from by
                simp [retargetedOutE, retRelOfE, hsf', hcl]]
            simp
          · rw [h3, List.filterMap_cons,
              show brokenOutE E fs0 p = none from by simp [brokenOutE, hsf', hcl]]
          · rw [h4, List.filter_cons,
              show errBE E true fs0 p = false from by simp [errBE, hsf']]
            simp
        | false =>
          by_cases hu : E.unlinkFails p = true
          · have hstep : linkStepE E false (st, errs) p = (st, errs ++ [p]) := by
              unfold linkStepE
              dsimp only
              rw [if_neg hsf, hclass, hcl]
              dsimp only
              rw [if_pos hu]
              rfl
            rw [hstep]
            obtain ⟨h1, h2, h3, h4⟩ :=
              ih st (errs ++ [p]) hnd'
                (fun q hq => hlk q (List.mem_cons_of_mem p hq)) hfile
            refine ⟨?_, ?_, ?_, ?_⟩
            · rw [h1, List.filter_cons,
                show correctBE E fs0 p = false from by simp [correctBE, hcl]]
              simp
            · rw [h2, List.filterMap_cons,
                show retargetedOutE E false fs0 p = none from by
                  simp [retargetedOutE, hsf', hu]]
            · rw [h3, List.filterMap_cons,
                show brokenOutE E fs0 p = none from by simp [brokenOutE, hsf', hcl]]
            · rw [h4, List.filter_cons,
                show errBE E false fs0 p = true from by
                  simp [errBE, retRelOfE, hcl, hsf', hu]]
              simp
          · have hu' : E.unlinkFails p = false := by
              cases hbb : E.unlinkFails p
              · rfl
              · exact absurd hbb hu
            by_cases hsy : E.symlinkFails p = true
            · have hstep : linkStepE E false (st, errs) p =
                  ((⟨st.fixed, st.retargeted, st.broken, fsUnlink st.fs p⟩ : LinkState),
                    errs ++ [p]) := by
                unfold linkStepE
                dsimp only
                rw [if_neg hsf, hclass, hcl]
                dsimp only
                rw [if_neg (show ¬(E.unlinkFails p = true) from by simp [hu']),
                  if_pos hsy]
                rfl
              rw [hstep]
              have hlk' : ∀ q ∈ w, lookupFS (fsUnlink st.fs p) q = lookupFS fs0 q := by
                intro q hq
                rw [lookupFS_fsUnlink, if_neg (fun hh : q = p => hpnotw (hh ▸ hq))]
                exact hlk q (List.mem_cons_of_mem p hq)
              have hfile' : ∀ q, lookupFS (fsUnlink st.fs p) q = some FKind.file ↔
                  lookupFS fs0 q = some FKind.file := by
                intro q
                rw [lookupFS_fsUnlink]
                by_cases hqp : q = p
                · rw [if_pos hqp]
                  constructor
                  · intro hc
                    exact absurd hc (by simp)
                  · intro hc
                    rw [hqp, hlt0] at hc
                    exact absurd hc (by simp)
                · rw [if_neg hqp]
                  exact hfile q
              obtain ⟨h1, h2, h3, h4⟩ :=
                ih (⟨st.fixed, st.retargeted, st.broken, fsUnlink st.fs p⟩ : LinkState)
                  (errs ++ [p]) hnd' hlk' hfile'
              refine ⟨?_, ?_, ?_, ?_⟩
              · rw [h1, List.filter_cons,
                  show correctBE E fs0 p = false from by simp [correctBE, hcl]]
                simp
              · rw [h2, List.filterMap_cons,
                  show retargetedOutE E false fs0 p = none from by
                    simp [retargetedOutE, hsf', hsy]]
              · rw [h3, List.filterMap_cons,
                  show brokenOutE E fs0 p = none from by simp [brokenOutE, hsf', hcl]]
              · rw [h4, List.filter_cons,
                  show errBE E false fs0 p = true from by
                    simp [errBE, retRelOfE, hcl, hsf', hsy]]
                simp
            · have hsy' : E.symlinkFails p = false := by
                cases hbb : E.symlinkFails p
                · rfl
                · exact absurd hbb hsy
              have hstep : linkStepE E false (st, errs) p =
                  ((⟨st.fixed, st.retargeted ++ [(p, rel)], st.broken,
                    fsSetLink st.fs p rel⟩ : LinkState), errs) := by
                unfold linkStepE
                dsimp only
                rw [if_neg hsf, hclass, hcl]
                dsimp only
                rw [if_neg (show ¬(E.unlinkFails p = true) from by simp [hu']),
                  if_neg (show ¬(E.symlinkFails p = true) from by simp [hsy'])]
                rfl
              rw [hstep]
              have hlk' : ∀ q ∈ w,
                  lookupFS (fsSetLink st.fs p rel) q = lookupFS fs0 q := by
                intro q hq
                rw [lookupFS_fsSetLink, if_neg (fun hh : q = p => hpnotw (hh ▸ hq))]
                exact hlk q (List.mem_cons_of_mem p hq)
              have hfile' : ∀ q, lookupFS (fsSetLink st.fs p rel) q = some FKind.file ↔
                  lookupFS fs0 q = some FKind.file := by
                intro q
                rw [lookupFS_fsSetLink]
                by_cases hqp : q = p
                · rw [if_pos hqp, hlt']
                  constructor
                  · intro hc
                    exact absurd hc (by simp)
                  · intro hc
                    rw [hqp, hlt0] at hc
                    exact absurd hc (by simp)
                · rw [if_neg hqp]
                  exact hfile q
              obtain ⟨h1, h2, h3, h4⟩ :=
                ih (⟨st.fixed, st.retargeted ++ [(p, rel)], st.broken,
                    fsSetLink st.fs p rel⟩ : LinkState) errs hnd' hlk' hfile'
              refine ⟨?_, ?_, ?_, ?_⟩
              · rw [h1, List.filter_cons,
                  show correctBE E fs0 p = false from by simp [correctBE, hcl]]
                simp
              · rw [h2, List.filterMap_cons,
                  show retargetedOutE E false fs0 p = some (p, rel) from by
                    simp [retargetedOutE, retRelOfE, hsf', hu', hsy', hcl]]
                simp
              · rw [h3, List.filterMap_cons,
                  show brokenOutE E fs0 p = none from by simp [brokenOutE, hsf', hcl]]
              · rw [h4, List.filter_cons,
                  show errBE E false fs0 p = false from by
                    simp [errBE, hsf', hu', hsy']]
                simp

instance exceptDecEq {ε α : Type} [DecidableEq ε] [DecidableEq α] :
    DecidableEq (Except ε α) := fun x y =>
  match x, y with
  | Except.ok a, Except.ok b =>
    if h : a = b then isTrue (by rw [h]) else isFalse (fun hc => h (Except.ok.inj hc))
  | Except.error a, Except.error b =>
    if h : a = b then isTrue (by rw [h]) else isFalse (fun hc => h (Except.error.inj hc))
  | Except.ok _, Except.error _ => isFalse (fun hc => Except.noConfusion hc)
  | Except.error _, Except.ok _ => isFalse (fun hc => Except.noConfusion hc)

/-- A concrete oracle that fails exactly the rename of `/r/a1.jpg`. -/
def failFirstRename : ExcOracle :=
  ⟨fun _ => false, fun _ => false,
   fun o _ => decide (o = (⟨"/r", "a1.jpg"⟩ : Path)),
   fun _ => false, fun _ => false⟩

/-- C4 counterexample: on `fsTwoFiles` both files queue renames, but when
the first rename raises, `normalize_real_files` aborts with the exception
— the second entry's rename is never attempted, contradicting
"caught ... and processing continues with the next entry". -/
theorem C4_counterexample :
    (scanReal fsTwoFiles).1 =
      [((⟨"/r", "a1.jpg"⟩ : Path), (⟨"/r", "000001.jpg"⟩ : Path)),
       ((⟨"/r", "b2.jpg"⟩ : Path), (⟨"/r", "000002.jpg"⟩ : Path))] ∧
    normalize_real_filesE failFirstRename fsTwoFiles false =
      Except.error ((⟨"/r", "a1.jpg"⟩ : Path), (⟨"/r", "000001.jpg"⟩ : Path)) := by
  decide

/-- A concrete oracle that fails exactly the `os.symlink` call on
`/r/63x.jpg`. -/
def failSymlink63 : ExcOracle :=
  ⟨fun _ => false, fun _ => false, fun _ _ => false, fun _ => false,
   fun p => decide (p = (⟨"/r", "63x.jpg"⟩ : Path))⟩

/-- A canonical file next to a link that points at the wrong target, so
the link classifies for retargeting. -/
def fsWrongT : FS :=
  [(⟨"/r", "000063.jpg"⟩, FKind.file), (⟨"/r", "63x.jpg"⟩, FKind.link "zz")]

/-- C4 (amended): per-entry exceptions during the two scans and during
link repair are caught and logged, and processing continues with the next
entry — an entry whose stat raises contributes exactly one error record;
an `os.readlink` failure is caught by the inner handler (lines 81-84) and
the entry is then classified with unknown current target; an `unlink` or
`symlink` failure while retargeting is caught by the per-entry handler
and contributes an error record in place of the retarget record.  Each
walked entry's records are determined by its own classification against
the initial tree and its own failures, independently of failures on other
entries; in particular when only stats fail the records are exactly those
of the exception-free run on the non-failing entries.  But an exception
while applying a queued rename in `normalize_real_files` is not caught
and aborts the batch, leaving the remaining queued renames unapplied. -/
theorem C4_error_handling :
    (∀ (E : ExcOracle) (fs : FS),
      scanRealE E fs =
        (((walkJpg fs).filter (fun p => !E.statFails p)).foldl (realScanStep fs) ([], []),
          (walkJpg fs).filter (fun p => E.statFails p))) ∧
    (∀ (E : ExcOracle) (fs : FS) (dry : Bool), keysNodup fs →
      (fix_symlinksE E fs dry).1.fixed = (walkJpg fs).filter (correctBE E fs) ∧
      (fix_symlinksE E fs dry).1.retargeted =
        (walkJpg fs).filterMap (retargetedOutE E dry fs) ∧
      (fix_symlinksE E fs dry).1.broken = (walkJpg fs).filterMap (brokenOutE E fs) ∧
      (fix_symlinksE E fs dry).2 = (walkJpg fs).filter (errBE E dry fs)) ∧
    (∀ (E : ExcOracle) (fs : FS) (dry : Bool),
      (∀ p, E.readlinkFails p = false) → (∀ p, E.unlinkFails p = false) →
      (∀ p, E.symlinkFails p = false) →
      fix_symlinksE E fs dry =
        (((walkJpg fs).filter (fun p => !E.statFails p)).foldl (linkStep dry) ⟨[], [], [], fs⟩,
          (walkJpg fs).filter (fun p => E.statFails p))) ∧
    (∀ (E : ExcOracle) (fs : FS) (o n : Path) (rest : List (Path × Path)),
      E.renameFails o n = true →
      applyRenamesE E fs ((o, n) :: rest) = Except.error (o, n)) := by
  refine ⟨?_, ?_, ?_, ?_⟩
  · intro E fs
    unfold scanRealE
    rw [foldl_realScanStepE E fs (walkJpg fs) ([], []) []]
    rfl
  · intro E fs dry hnd
    obtain ⟨h1, h2, h3, h4⟩ := linkFoldE_spec E dry fs (walkJpg fs) ⟨[], [], [], fs⟩ []
      (walkJpg_nodup fs hnd) (fun p _ => rfl) (fun q => Iff.rfl)
    exact ⟨by simpa using h1, by simpa using h2, by simpa using h3, by simpa using h4⟩
  · intro E fs dry hr hu hs
    unfold fix_symlinksE
    rw [foldl_linkStepE E hr hu hs dry (walkJpg fs) ⟨[], [], [], fs⟩ []]
    rfl
  · intro E fs o n rest h
    unfold applyRenamesE
    rw [if_pos h]

theorem C4_error_handling_witness :
    (fix_symlinksE failSymlink63 fsWrongT false).2 = [(⟨"/r", "63x.jpg"⟩ : Path)] ∧
    (fix_symlinksE failSymlink63 fsWrongT false).1.retargeted = [] ∧
    applyRenamesE failFirstRename fsTwoFiles
      [((⟨"/r", "a1.jpg"⟩ : Path), (⟨"/r", "000001.jpg"⟩ : Path)),
       ((⟨"/r", "b2.jpg"⟩ : Path), (⟨"/r", "000002.jpg"⟩ : Path))] =
      Except.error ((⟨"/r", "a1.jpg"⟩ : Path), (⟨"/r", "000001.jpg"⟩ : Path)) := by
  obtain ⟨-, h2, h3, h4⟩ :=
    C4_error_handling.2.1 failSymlink63 fsWrongT false (by decide)
  refine ⟨?_, ?_, C4_error_handling.2.2.2 failFirstRename fsTwoFiles _ _ _ (by decide)⟩
  · rw [h4]
    decide
  · rw [h2]
    decide

end LasHeR
